import Mathlib

/-!
Verification of the historical wallet-reserve extractor (Bitcoin / Ethereum /
Solana snapshot scripts).  The Python sources are shallowly embedded: pure
computations become Lean functions over explicit data; network I/O is
parameterised by the response values the server would return (a function from
cursor to page, an `Except`/`Option` outcome for a single fetch); Python
exceptions become `Except`/`Option` results; Python `float` prices are
modelled exactly over `Rat`; Python `dict` (insertion-ordered, unique keys)
becomes an association list with replace-on-insert semantics.
-/

namespace WalletAudit

/-! ## Python dict over (txid, output-index) keys, as used by `btc.py`.

`utxos: Dict[Tuple[str, int], int]` — `utxos[(txid, idx)] = v` replaces the
value when the key is present and appends otherwise; `utxos.pop(k, None)`
removes the key when present and is a no-op otherwise; `sum(utxos.values())`
sums the stored values. -/

abbrev UtxoKey := String × Nat

def hasKey (m : List (UtxoKey × Int)) (k : UtxoKey) : Bool :=
  m.any (fun kv => kv.1 = k)

def dictInsert (m : List (UtxoKey × Int)) (k : UtxoKey) (v : Int) :
    List (UtxoKey × Int) :=
  if hasKey m k then m.map (fun kv => if kv.1 = k then (k, v) else kv)
  else m ++ [(k, v)]

def dictPop (m : List (UtxoKey × Int)) (k : UtxoKey) : List (UtxoKey × Int) :=
  m.filter (fun kv => ¬ kv.1 = k)

def sumVals (m : List (UtxoKey × Int)) : Int :=
  (m.map (fun kv => kv.2)).sum

/-! ## Bitcoin transaction records (Esplora JSON shape, `btc.py`).

Optional JSON fields are `Option`; `vout.get("value", 0)` is
`(value).getD 0`; a missing or empty `status` object is `status = none`. -/

structure BtcPrevout where
  scriptpubkey_address : Option String
  deriving DecidableEq

structure BtcVin where
  prevout : Option BtcPrevout
  txid : Option String
  vout : Option Nat
  deriving DecidableEq

structure BtcVout where
  scriptpubkey_address : Option String
  value : Option Int
  deriving DecidableEq

structure BtcStatus where
  confirmed : Bool
  block_time : Option Int
  deriving DecidableEq

structure BtcTx where
  txid : String
  status : Option BtcStatus
  vin : List BtcVin
  vout : List BtcVout
  deriving DecidableEq

/-- `tx_block_time` (btc.py): the confirmation time, present only when
`status.confirmed` holds and `status.block_time` is present. -/
def tx_block_time (tx : BtcTx) : Option Int :=
  match tx.status with
  | some st => if st.confirmed then st.block_time else none
  | none => none

/-- The sort key `tx_block_time(t) or 0` (Python `or` yields `0` both for
`None` and for a zero time, which coincides with `getD 0`). -/
def btcSortKey (tx : BtcTx) : Int :=
  (tx_block_time tx).getD 0

/-- One replay step of `btc_balance_at_timestamp` (btc.py lines 140–157):
first pop every UTXO referenced by an input whose `prevout` address is the
tracked address, then insert a UTXO `(this txid, output index) ↦ value` for
every output paying the tracked address. -/
def applyTx (address : String) (utxos : List (UtxoKey × Int)) (tx : BtcTx) :
    List (UtxoKey × Int) :=
  let afterSpend := tx.vin.foldl
    (fun m vin =>
      match vin.prevout with
      | none => m
      | some prev =>
        if prev.scriptpubkey_address = some address then
          match vin.txid, vin.vout with
          | some ptx, some pv => dictPop m (ptx, pv)
          | _, _ => m
        else m)
    utxos
  tx.vout.enum.foldl
    (fun m iv =>
      if iv.2.scriptpubkey_address = some address then
        dictInsert m (tx.txid, iv.1) (iv.2.value.getD 0)
      else m)
    afterSpend

/-- Eligibility filter of `btc_balance_at_timestamp`: confirmation time
present and at-or-before the cutoff. -/
def btcEligible (ts_cutoff : Int) (tx : BtcTx) : Bool :=
  match tx_block_time tx with
  | some bt => decide (bt ≤ ts_cutoff)
  | none => false

/-- The eligible transactions of the fetched history, sorted ascending by
confirmation time.  Python `list.sort` is a stable ascending sort; any stable
ascending sort computes the same list, so we use insertion sort. -/
def btcSortedEligible (ts_cutoff : Int) (all_txs : List BtcTx) : List BtcTx :=
  List.insertionSort (fun a b => btcSortKey a ≤ btcSortKey b)
    (all_txs.filter (btcEligible ts_cutoff))

/-- The final UTXO set produced by the replay of
`btc_balance_at_timestamp address ts_cutoff` over a fetched history. -/
def btcFinalUtxos (address : String) (ts_cutoff : Int)
    (all_txs : List BtcTx) : List (UtxoKey × Int) :=
  (btcSortedEligible ts_cutoff all_txs).foldl (applyTx address) []

/-- `btc_balance_at_timestamp` (btc.py lines 119–159) applied to the fetched
transaction history `all_txs` (the pagination that produces `all_txs` is
modelled separately, see `fetch_pages`). -/
def btc_balance_at_timestamp (address : String) (ts_cutoff : Int)
    (all_txs : List BtcTx) : Int :=
  sumVals (btcFinalUtxos address ts_cutoff all_txs)

/-! ### Reference algorithm, written from the specification's words (§4.3):
retain only transactions whose confirmation time is present and ≤ cutoff;
sort them ascending by confirmation time (stable); replay each transaction by
first removing every UTXO referenced by an input whose previous output's
address is the tracked address and then adding a UTXO keyed by
(this transaction id, output index) for every output paying the tracked
address; return the sum of the remaining UTXO values. -/

def specRemoveSpends (address : String) (vins : List BtcVin)
    (utxos : List (UtxoKey × Int)) : List (UtxoKey × Int) :=
  match vins with
  | [] => utxos
  | vin :: rest =>
    let m :=
      match vin.prevout with
      | some prev =>
        if prev.scriptpubkey_address = some address then
          match vin.txid, vin.vout with
          | some ptx, some pv => dictPop utxos (ptx, pv)
          | _, _ => utxos
        else utxos
      | none => utxos
    specRemoveSpends address rest m

def specAddOutputs (address txid : String) (vouts : List (Nat × BtcVout))
    (utxos : List (UtxoKey × Int)) : List (UtxoKey × Int) :=
  match vouts with
  | [] => utxos
  | iv :: rest =>
    let m :=
      if iv.2.scriptpubkey_address = some address then
        dictInsert utxos (txid, iv.1) (iv.2.value.getD 0)
      else utxos
    specAddOutputs address txid rest m

def specReplay (address : String) (txs : List BtcTx)
    (utxos : List (UtxoKey × Int)) : List (UtxoKey × Int) :=
  match txs with
  | [] => utxos
  | tx :: rest =>
    specReplay address rest
      (specAddOutputs address tx.txid tx.vout.enum
        (specRemoveSpends address tx.vin utxos))

/-- Reference balance reconstruction, from the spec's words. -/
def btcBalanceSpec (address : String) (cutoff : Int)
    (history : List BtcTx) : Int :=
  let retained := history.filter
    (fun tx => (tx_block_time tx).isSome ∧ (tx_block_time tx).getD 0 ≤ cutoff)
  let ordered := List.insertionSort
    (fun a b => (tx_block_time a).getD 0 ≤ (tx_block_time b).getD 0) retained
  sumVals (specReplay address ordered [])

lemma specRemoveSpends_eq (address : String) (vins : List BtcVin)
    (utxos : List (UtxoKey × Int)) :
    specRemoveSpends address vins utxos =
      vins.foldl
        (fun m vin =>
          match vin.prevout with
          | none => m
          | some prev =>
            if prev.scriptpubkey_address = some address then
              match vin.txid, vin.vout with
              | some ptx, some pv => dictPop m (ptx, pv)
              | _, _ => m
            else m)
        utxos := by
  induction vins generalizing utxos with
  | nil => rfl
  | cons vin rest ih =>
    simp only [specRemoveSpends, List.foldl_cons]
    rw [ih]
    rcases vin.prevout with _ | prev <;> rfl

lemma specAddOutputs_eq (address txid : String)
    (vouts : List (Nat × BtcVout)) (utxos : List (UtxoKey × Int)) :
    specAddOutputs address txid vouts utxos =
      vouts.foldl
        (fun m iv =>
          if iv.2.scriptpubkey_address = some address then
            dictInsert m (txid, iv.1) (iv.2.value.getD 0)
          else m)
        utxos := by
  induction vouts generalizing utxos with
  | nil => rfl
  | cons iv rest ih =>
    simp only [specAddOutputs, List.foldl_cons]
    rw [ih]

lemma specReplay_eq (address : String) (txs : List BtcTx)
    (utxos : List (UtxoKey × Int)) :
    specReplay address txs utxos = txs.foldl (applyTx address) utxos := by
  induction txs generalizing utxos with
  | nil => rfl
  | cons tx rest ih =>
    simp only [specReplay, List.foldl_cons]
    rw [ih, applyTx, specAddOutputs_eq, specRemoveSpends_eq]

lemma btcEligible_eq_spec (cutoff : Int) (tx : BtcTx) :
    btcEligible cutoff tx =
      decide ((tx_block_time tx).isSome = true ∧
        (tx_block_time tx).getD 0 ≤ cutoff) := by
  rcases h : tx_block_time tx with _ | bt <;> simp [btcEligible, h]

/-- The worked example of §8: tx1 pays address A 500 at time 100. -/
def exTx1 : BtcTx :=
  { txid := "tx1"
    status := some { confirmed := true, block_time := some 100 }
    vin := []
    vout := [{ scriptpubkey_address := some "A", value := some 500 }] }

/-- tx2 spends tx1's output 0 and pays A 200 change at time 200 (the rest
going to another address B). -/
def exTx2 : BtcTx :=
  { txid := "tx2"
    status := some { confirmed := true, block_time := some 200 }
    vin := [{ prevout := some { scriptpubkey_address := some "A" }
              txid := some "tx1", vout := some 0 }]
    vout := [{ scriptpubkey_address := some "A", value := some 200 },
             { scriptpubkey_address := some "B", value := some 300 }] }

/-- **C1.** The UTXO balance reconstruction equals the reference algorithm
(retain confirmed-at-or-before-cutoff transactions, sort ascending by
confirmation time, replay spends then receipts keyed by (txid, index), sum
the remaining values), and on the two-transaction example history the balance
is 500 at cutoff 150 and 200 at cutoff 250. -/
theorem btc_balance_matches_reference :
    (∀ (address : String) (cutoff : Int) (history : List BtcTx),
        btc_balance_at_timestamp address cutoff history =
          btcBalanceSpec address cutoff history) ∧
    btc_balance_at_timestamp "A" 150 [exTx1, exTx2] = 500 ∧
    btc_balance_at_timestamp "A" 250 [exTx1, exTx2] = 200 := by
  refine ⟨fun address cutoff history => ?_, by decide, by decide⟩
  have hfil : history.filter (btcEligible cutoff) =
      history.filter (fun tx => decide ((tx_block_time tx).isSome = true ∧
        (tx_block_time tx).getD 0 ≤ cutoff)) := by
    apply List.filter_congr
    intro tx _
    exact btcEligible_eq_spec cutoff tx
  simp only [btc_balance_at_timestamp, btcFinalUtxos, btcSortedEligible,
    btcBalanceSpec, btcSortKey]
  rw [specReplay_eq, hfil]

/-! ## Instrumented replay for the UTXO invariants (claim C9).

A transaction's effect on the UTXO dict is flattened into a list of events
(pops of spent keys, then inserts of created keys); the fold of the events is
proved equal to the replay of `btc_balance_at_timestamp`, and removals of a
key are counted to make "no UTXO is removed twice" formal.  A removal counts
only when the popped key is actually present (a `dict.pop(k, None)` of an
absent key changes nothing). -/

inductive UEvent
  | spend (k : UtxoKey)
  | create (k : UtxoKey) (v : Int)
  deriving DecidableEq

def stepEvent (m : List (UtxoKey × Int)) : UEvent → List (UtxoKey × Int)
  | .spend k => dictPop m k
  | .create k v => dictInsert m k v

def runEvents (es : List UEvent) (m : List (UtxoKey × Int)) :
    List (UtxoKey × Int) :=
  es.foldl stepEvent m

def vinEvents (address : String) (vin : BtcVin) : List UEvent :=
  match vin.prevout with
  | none => []
  | some prev =>
    if prev.scriptpubkey_address = some address then
      match vin.txid, vin.vout with
      | some ptx, some pv => [.spend (ptx, pv)]
      | _, _ => []
    else []

def txEvents (address : String) (tx : BtcTx) : List UEvent :=
  tx.vin.flatMap (vinEvents address) ++
    tx.vout.enum.filterMap (fun iv =>
      if iv.2.scriptpubkey_address = some address then
        some (.create (tx.txid, iv.1) (iv.2.value.getD 0))
      else none)

lemma foldl_vinEvents (address : String) :
    ∀ (vins : List BtcVin) (m : List (UtxoKey × Int)),
    (vins.flatMap (vinEvents address)).foldl stepEvent m =
      vins.foldl
        (fun m vin =>
          match vin.prevout with
          | none => m
          | some prev =>
            if prev.scriptpubkey_address = some address then
              match vin.txid, vin.vout with
              | some ptx, some pv => dictPop m (ptx, pv)
              | _, _ => m
            else m)
        m := by
  intro vins
  induction vins with
  | nil => intro m; rfl
  | cons vin rest ih =>
    intro m
    rw [List.flatMap_cons, List.foldl_append, List.foldl_cons, ih]
    congr 1
    unfold vinEvents
    rcases vin.prevout with _ | prev
    · rfl
    · by_cases h : prev.scriptpubkey_address = some address
      · simp only [h, if_pos]
        rcases vin.txid with _ | ptx <;> rcases vin.vout with _ | pv <;> rfl
      · simp [h]

lemma foldl_voutEvents (address txid : String) :
    ∀ (vouts : List (Nat × BtcVout)) (m : List (UtxoKey × Int)),
    (vouts.filterMap (fun iv =>
        if iv.2.scriptpubkey_address = some address then
          some (UEvent.create (txid, iv.1) (iv.2.value.getD 0))
        else none)).foldl stepEvent m =
      vouts.foldl
        (fun m iv =>
          if iv.2.scriptpubkey_address = some address then
            dictInsert m (txid, iv.1) (iv.2.value.getD 0)
          else m)
        m := by
  intro vouts
  induction vouts with
  | nil => intro m; rfl
  | cons iv rest ih =>
    intro m
    by_cases h : iv.2.scriptpubkey_address = some address
    · simp only [List.filterMap_cons, h, if_pos, List.foldl_cons, ih]
      rfl
    · simp only [List.filterMap_cons, h, if_neg, List.foldl_cons, ih]
      exact ih m

lemma applyTx_eq_events (address : String) (m : List (UtxoKey × Int))
    (tx : BtcTx) :
    applyTx address m tx = runEvents (txEvents address tx) m := by
  unfold applyTx txEvents runEvents
  rw [List.foldl_append, foldl_vinEvents, foldl_voutEvents]

/-- The full event list replayed by `btc_balance_at_timestamp`. -/
def btcEvents (address : String) (cutoff : Int) (txs : List BtcTx) :
    List UEvent :=
  (btcSortedEligible cutoff txs).flatMap (txEvents address)

lemma foldl_applyTx_eq_runEvents (address : String) :
    ∀ (txs : List BtcTx) (m : List (UtxoKey × Int)),
    txs.foldl (applyTx address) m =
      runEvents (txs.flatMap (txEvents address)) m := by
  intro txs
  induction txs with
  | nil => intro m; rfl
  | cons tx rest ih =>
    intro m
    rw [List.foldl_cons, ih, List.flatMap_cons]
    unfold runEvents
    rw [List.foldl_append, applyTx_eq_events]
    rfl

lemma btcFinalUtxos_eq_events (address : String) (cutoff : Int)
    (txs : List BtcTx) :
    btcFinalUtxos address cutoff txs =
      runEvents (btcEvents address cutoff txs) [] := by
  unfold btcFinalUtxos btcEvents
  exact foldl_applyTx_eq_runEvents address _ []

/-- Count of actual removals of key `k` (pops that find the key present)
along an event replay started from `m`. -/
def removalsFrom (k : UtxoKey) : List UEvent → List (UtxoKey × Int) → Nat
  | [], _ => 0
  | e :: rest, m =>
    (match e with
     | .spend k2 => if k2 = k ∧ hasKey m k then 1 else 0
     | .create _ _ => 0) + removalsFrom k rest (stepEvent m e)

/-- Count of creations of key `k` in an event list. -/
def createsCount (k : UtxoKey) : List UEvent → Nat
  | [] => 0
  | .create k2 _ :: rest => (if k2 = k then 1 else 0) + createsCount k rest
  | .spend _ :: rest => createsCount k rest

/-- The list of keys created along an event list. -/
def createdKeys : List UEvent → List UtxoKey
  | [] => []
  | .create k2 _ :: rest => k2 :: createdKeys rest
  | .spend _ :: rest => createdKeys rest

lemma createsCount_eq_zero_of_not_mem (k : UtxoKey) :
    ∀ es : List UEvent, k ∉ createdKeys es → createsCount k es = 0 := by
  intro es
  induction es with
  | nil => intro _; rfl
  | cons e rest ih =>
    intro hnm
    cases e with
    | spend k2 => exact ih hnm
    | create k2 v =>
      have h1 : ¬ k2 = k := by
        intro hh
        exact hnm (by rw [hh] at *; exact List.mem_cons_self _ _)
      have h2 : k ∉ createdKeys rest := fun hh =>
        hnm (List.mem_cons_of_mem _ hh)
      simp only [createsCount, if_neg h1, ih h2]

lemma createsCount_le_one_of_nodup (k : UtxoKey) :
    ∀ es : List UEvent, (createdKeys es).Nodup → createsCount k es ≤ 1 := by
  intro es
  induction es with
  | nil => intro _; exact Nat.zero_le 1
  | cons e rest ih =>
    intro hnd
    cases e with
    | spend k2 => exact ih hnd
    | create k2 v =>
      have hnd2 : (createdKeys rest).Nodup ∧ k2 ∉ createdKeys rest := by
        have := List.nodup_cons.mp (by simpa [createdKeys] using hnd)
        exact ⟨this.2, this.1⟩
      by_cases h : k2 = k
      · subst h
        have := createsCount_eq_zero_of_not_mem k2 rest hnd2.2
        simp only [createsCount, if_pos rfl, this]
        simp
      · simp only [createsCount, if_neg h]
        simpa using ih hnd2.1

/-- Instrumented removal count for the replay of
`btc_balance_at_timestamp`. -/
def btcRemovals (address : String) (cutoff : Int) (txs : List BtcTx)
    (k : UtxoKey) : Nat :=
  removalsFrom k (btcEvents address cutoff txs) []

lemma hasKey_dictPop (k k2 : UtxoKey) :
    ∀ m : List (UtxoKey × Int),
    hasKey (dictPop m k2) k = (hasKey m k && !(decide (k = k2))) := by
  intro m
  induction m with
  | nil => simp [hasKey, dictPop]
  | cons kv rest ih =>
    by_cases h1 : kv.1 = k2
    · rw [show dictPop (kv :: rest) k2 = dictPop rest k2 by
        simp [dictPop, List.filter_cons, h1]]
      rw [ih]
      by_cases h2 : kv.1 = k
      · have : k = k2 := by rw [← h2, h1]
        simp [hasKey, List.any_cons, h2, this]
      · simp [hasKey, List.any_cons, h2]
    · rw [show dictPop (kv :: rest) k2 = kv :: dictPop rest k2 by
        simp [dictPop, List.filter_cons, h1]]
      by_cases h2 : kv.1 = k
      · have : ¬ k = k2 := by rw [← h2]; exact h1
        simp [hasKey, List.any_cons, h2, this]
      · simp only [hasKey, List.any_cons] at ih ⊢
        simp [h2, ih]

lemma hasKey_map_replace (k k2 : UtxoKey) (v : Int) :
    ∀ m : List (UtxoKey × Int),
    hasKey (m.map (fun kv => if kv.1 = k2 then (k2, v) else kv)) k =
      hasKey m k := by
  intro m
  induction m with
  | nil => rfl
  | cons kv rest ih =>
    by_cases h1 : kv.1 = k2 <;>
      simp only [List.map_cons, h1, if_pos, if_neg, hasKey, List.any_cons] at ih ⊢ <;>
      simp [h1, ih]

lemma hasKey_dictInsert (k k2 : UtxoKey) (v : Int)
    (m : List (UtxoKey × Int)) :
    hasKey (dictInsert m k2 v) k = (hasKey m k || decide (k = k2)) := by
  unfold dictInsert
  by_cases h : hasKey m k2
  · rw [if_pos h, hasKey_map_replace]
    by_cases hk : k = k2
    · subst hk; simp [h]
    · simp [hk]
  · rw [if_neg h]
    simp only [hasKey, List.any_append, List.any_cons, List.any_nil]
    by_cases hk : k = k2
    · subst hk; simp
    · have : ¬ k2 = k := fun hh => hk hh.symm
      simp [hk, this, hasKey]

/-- Presence of a key in the dict, as a count (0 or 1). -/
def pres (m : List (UtxoKey × Int)) (k : UtxoKey) : Nat :=
  if hasKey m k then 1 else 0

lemma pres_pop_self (m : List (UtxoKey × Int)) (k : UtxoKey) :
    pres (dictPop m k) k = 0 := by
  unfold pres
  rw [hasKey_dictPop]
  simp

lemma pres_pop_ne (m : List (UtxoKey × Int)) (k k2 : UtxoKey)
    (h : ¬ k = k2) : pres (dictPop m k2) k = pres m k := by
  unfold pres
  rw [hasKey_dictPop]
  simp [h]

lemma pres_insert_self (m : List (UtxoKey × Int)) (k : UtxoKey) (v : Int) :
    pres (dictInsert m k v) k = 1 := by
  unfold pres
  rw [hasKey_dictInsert]
  simp

lemma pres_insert_ne (m : List (UtxoKey × Int)) (k k2 : UtxoKey) (v : Int)
    (h : ¬ k = k2) : pres (dictInsert m k2 v) k = pres m k := by
  unfold pres
  rw [hasKey_dictInsert]
  simp [h]

/-- Conservation: along any replay, the number of actual removals of a key
plus its final presence is bounded by its initial presence plus the number of
its creations. -/
lemma removals_conserve (k : UtxoKey) :
    ∀ (es : List UEvent) (m : List (UtxoKey × Int)),
    removalsFrom k es m + pres (runEvents es m) k ≤
      pres m k + createsCount k es := by
  intro es
  induction es with
  | nil =>
    intro m
    simp [removalsFrom, runEvents, createsCount]
  | cons e rest ih =>
    intro m
    cases e with
    | spend k2 =>
      have ih' := ih (dictPop m k2)
      have hrun : runEvents (UEvent.spend k2 :: rest) m =
          runEvents rest (dictPop m k2) := rfl
      have hcc : createsCount k (UEvent.spend k2 :: rest) =
          createsCount k rest := rfl
      have hrem : removalsFrom k (UEvent.spend k2 :: rest) m =
          (if k2 = k ∧ hasKey m k then 1 else 0) +
            removalsFrom k rest (dictPop m k2) := rfl
      rw [hrun, hcc, hrem]
      by_cases hk : k2 = k
      · subst hk
        have hif : (if k2 = k2 ∧ hasKey m k2 then 1 else 0) = pres m k2 := by
          unfold pres
          by_cases hp : hasKey m k2 <;> simp [hp]
        rw [hif, pres_pop_self] at *
        omega
      · have hif : (if k2 = k ∧ hasKey m k then 1 else 0) = 0 :=
          if_neg (fun hh => hk hh.1)
        have hne : ¬ k = k2 := fun hh => hk hh.symm
        rw [hif, pres_pop_ne m k k2 hne] at *
        omega
    | create k2 v =>
      have ih' := ih (dictInsert m k2 v)
      have hrun : runEvents (UEvent.create k2 v :: rest) m =
          runEvents rest (dictInsert m k2 v) := rfl
      have hcc : createsCount k (UEvent.create k2 v :: rest) =
          (if k2 = k then 1 else 0) + createsCount k rest := rfl
      have hrem : removalsFrom k (UEvent.create k2 v :: rest) m =
          0 + removalsFrom k rest (dictInsert m k2 v) := rfl
      rw [hrun, hcc, hrem]
      by_cases hk : k2 = k
      · subst hk
        rw [pres_insert_self] at ih'
        have : pres m k2 + ((if k2 = k2 then 1 else 0) + createsCount k2 rest)
            = pres m k2 + 1 + createsCount k2 rest := by
          simp [Nat.add_assoc]
        rw [this]
        omega
      · have hne : ¬ k = k2 := fun hh => hk hh.symm
        rw [pres_insert_ne m k k2 v hne] at ih'
        rw [if_neg hk]
        omega

/-! ### Nonnegativity of the replayed balance. -/

def allValsNonneg (m : List (UtxoKey × Int)) : Prop :=
  ∀ kv ∈ m, 0 ≤ kv.2

def eventsNonneg (es : List UEvent) : Prop :=
  ∀ e ∈ es, ∀ k v, e = UEvent.create k v → 0 ≤ v

lemma allValsNonneg_dictPop {m : List (UtxoKey × Int)} (k : UtxoKey)
    (h : allValsNonneg m) : allValsNonneg (dictPop m k) := by
  intro kv hkv
  exact h kv (List.mem_of_mem_filter hkv)

lemma allValsNonneg_dictInsert {m : List (UtxoKey × Int)} (k : UtxoKey)
    {v : Int} (hv : 0 ≤ v) (h : allValsNonneg m) :
    allValsNonneg (dictInsert m k v) := by
  intro kv hkv
  unfold dictInsert at hkv
  by_cases hk : hasKey m k
  · rw [if_pos hk] at hkv
    obtain ⟨kv0, hkv0, heq⟩ := List.mem_map.mp hkv
    by_cases h0 : kv0.1 = k
    · rw [if_pos h0] at heq
      rw [← heq]
      exact hv
    · rw [if_neg h0] at heq
      rw [← heq]
      exact h kv0 hkv0
  · rw [if_neg hk] at hkv
    rcases List.mem_append.mp hkv with hl | hr
    · exact h kv hl
    · rw [List.mem_singleton.mp hr]
      exact hv

lemma runEvents_nonneg :
    ∀ (es : List UEvent) (m : List (UtxoKey × Int)),
    allValsNonneg m → eventsNonneg es → allValsNonneg (runEvents es m) := by
  intro es
  induction es with
  | nil => intro m hm _; exact hm
  | cons e rest ih =>
    intro m hm hes
    have hrest : eventsNonneg rest := fun e2 h2 => hes e2 (List.mem_cons_of_mem _ h2)
    cases e with
    | spend k =>
      exact ih (dictPop m k) (allValsNonneg_dictPop k hm) hrest
    | create k v =>
      have hv : 0 ≤ v := hes (UEvent.create k v) (List.mem_cons_self _ _) k v rfl
      exact ih (dictInsert m k v) (allValsNonneg_dictInsert k hv hm) hrest

lemma sumVals_nonneg {m : List (UtxoKey × Int)} (h : allValsNonneg m) :
    0 ≤ sumVals m := by
  apply List.sum_nonneg
  intro x hx
  obtain ⟨kv, hkv, heq⟩ := List.mem_map.mp hx
  rw [← heq]
  exact h kv hkv

lemma vinEvents_spend (address : String) (vin : BtcVin) :
    ∀ e ∈ vinEvents address vin, ∃ k2, e = UEvent.spend k2 := by
  intro e he
  unfold vinEvents at he
  split at he
  · cases he
  · split at he
    · split at he
      · exact ⟨_, List.mem_singleton.mp he⟩
      · cases he
    · cases he

lemma btcEvents_nonneg (address : String) (cutoff : Int) (txs : List BtcTx)
    (hval : ∀ tx ∈ txs, ∀ o ∈ tx.vout, 0 ≤ o.value.getD 0) :
    eventsNonneg (btcEvents address cutoff txs) := by
  intro e he k v heq
  obtain ⟨tx, htx, hetx⟩ := List.mem_flatMap.mp he
  have htx2 : tx ∈ txs := by
    have hperm := List.perm_insertionSort
      (fun a b => btcSortKey a ≤ btcSortKey b)
      (txs.filter (btcEligible cutoff))
    have := hperm.mem_iff.mp htx
    exact List.mem_of_mem_filter this
  rcases List.mem_append.mp hetx with hl | hr
  · obtain ⟨vin, _, hev⟩ := List.mem_flatMap.mp hl
    obtain ⟨k2, hk2⟩ := vinEvents_spend address vin e hev
    rw [hk2] at heq
    cases heq
  · obtain ⟨iv, hiv, hev⟩ := List.mem_filterMap.mp hr
    by_cases hc : iv.2.scriptpubkey_address = some address
    · rw [if_pos hc] at hev
      have he2 : e = UEvent.create (tx.txid, iv.1) (iv.2.value.getD 0) :=
        (Option.some_inj.mp hev).symm
      rw [he2] at heq
      injection heq with h1 h2
      rw [← h2]
      obtain ⟨i, o⟩ := iv
      exact hval tx htx2 o (List.snd_mem_of_mem_enum hiv)
    · rw [if_neg hc] at hev; cases hev

/-- **C9 (amended).** For every UTXO replay sequence with nonnegative output
values in which the created UTXO keys (txid, output index) of the replayed
transactions are pairwise distinct, each UTXO key is actually removed from
the live set at most once (so no spend is processed twice), no key is both
removed (spent) and still present in the final set (unspent), and the
returned balance equals the sum of the remaining UTXO values and is ≥ 0. -/
theorem btc_replay_invariants (address : String) (cutoff : Int)
    (txs : List BtcTx) (k : UtxoKey)
    (hval : ∀ tx ∈ txs, ∀ o ∈ tx.vout, 0 ≤ o.value.getD 0)
    (hkeys : (createdKeys (btcEvents address cutoff txs)).Nodup) :
    btcRemovals address cutoff txs k ≤ 1 ∧
    (hasKey (btcFinalUtxos address cutoff txs) k = true →
      btcRemovals address cutoff txs k = 0) ∧
    btc_balance_at_timestamp address cutoff txs =
      sumVals (btcFinalUtxos address cutoff txs) ∧
    0 ≤ btc_balance_at_timestamp address cutoff txs := by
  have hcons := removals_conserve k (btcEvents address cutoff txs) []
  have hempty : pres ([] : List (UtxoKey × Int)) k = 0 := rfl
  have hcount : createsCount k (btcEvents address cutoff txs) ≤ 1 :=
    createsCount_le_one_of_nodup k _ hkeys
  have hfin : btcFinalUtxos address cutoff txs =
      runEvents (btcEvents address cutoff txs) [] :=
    btcFinalUtxos_eq_events address cutoff txs
  have hrem : btcRemovals address cutoff txs k =
      removalsFrom k (btcEvents address cutoff txs) [] := rfl
  refine ⟨?_, ?_, rfl, ?_⟩
  · rw [hrem]; omega
  · intro hpresent
    have : pres (runEvents (btcEvents address cutoff txs) []) k = 1 := by
      unfold pres
      rw [← hfin, hpresent]
      rfl
    rw [hrem]
    omega
  · have hnn : allValsNonneg (runEvents (btcEvents address cutoff txs) []) :=
      runEvents_nonneg _ [] (fun kv hkv => absurd hkv (List.not_mem_nil kv))
        (btcEvents_nonneg address cutoff txs hval)
    unfold btc_balance_at_timestamp
    rw [hfin]
    exact sumVals_nonneg hnn

/-! ### Counterexample to C9 as stated: with nonnegative values alone the
claim fails, because a fetched history can contain two transactions with the
same txid re-creating the same UTXO key, which is then removed twice. -/

def dupTx1 : BtcTx :=
  { txid := "t", status := some { confirmed := true, block_time := some 100 }
    vin := [], vout := [{ scriptpubkey_address := some "A", value := some 5 }] }

def dupTx2 : BtcTx :=
  { txid := "s", status := some { confirmed := true, block_time := some 200 }
    vin := [{ prevout := some { scriptpubkey_address := some "A" }
              txid := some "t", vout := some 0 }]
    vout := [{ scriptpubkey_address := some "B", value := some 5 }] }

def dupTx3 : BtcTx :=
  { txid := "t", status := some { confirmed := true, block_time := some 300 }
    vin := [], vout := [{ scriptpubkey_address := some "A", value := some 5 }] }

def dupTx4 : BtcTx :=
  { txid := "u", status := some { confirmed := true, block_time := some 400 }
    vin := [{ prevout := some { scriptpubkey_address := some "A" }
              txid := some "t", vout := some 0 }]
    vout := [] }

def dupHistory : List BtcTx := [dupTx1, dupTx2, dupTx3, dupTx4]

/-- **C9 counterexample.** A replay sequence whose output values are all
nonnegative in which the UTXO key ("t", 0) is removed from the live set
twice: the claim's "each UTXO key is removed from the live set at most once"
does not hold for every nonnegative replay sequence. -/
theorem btc_replay_double_removal_cex :
    dupHistory.all (fun tx => tx.vout.all (fun o => decide (0 ≤ o.value.getD 0)))
      = true ∧
    btcRemovals "A" 1000 dupHistory ("t", 0) = 2 := by
  constructor
  · decide
  · decide

/-- Witness for the amended C9 at a concrete history and key. -/
theorem btc_replay_invariants_witness :
    btcRemovals "A" 250 [exTx1, exTx2] ("tx1", 0) ≤ 1 ∧
    (hasKey (btcFinalUtxos "A" 250 [exTx1, exTx2]) ("tx1", 0) = true →
      btcRemovals "A" 250 [exTx1, exTx2] ("tx1", 0) = 0) ∧
    btc_balance_at_timestamp "A" 250 [exTx1, exTx2] =
      sumVals (btcFinalUtxos "A" 250 [exTx1, exTx2]) ∧
    0 ≤ btc_balance_at_timestamp "A" 250 [exTx1, exTx2] :=
  btc_replay_invariants "A" 250 [exTx1, exTx2] ("tx1", 0)
    (by decide) (by decide)

/-! ## BTC history pagination (btc.py lines 119–128, claim C6).

`for _ in range(max_pages): page = get_address_txs(address, last);
 if not page: break; all_txs.extend(page); last = page[-1]["txid"]`.
The server is the function from the "continue before this txid" cursor to the
returned page; the pair returned is (accumulated transactions, number of
server calls made). -/

def nextCursor (page : List BtcTx) : Option String :=
  match page.getLast? with
  | some t => some t.txid
  | none => none

def fetch_pages (server : Option String → List BtcTx) :
    Nat → Option String → List BtcTx × Nat
  | 0, _ => ([], 0)
  | n + 1, last =>
    let page := server last
    if page.isEmpty then ([], 1)
    else
      let rest := fetch_pages server n (nextCursor page)
      (page ++ rest.1, rest.2 + 1)

/-- The default page cap of `btc_balance_at_timestamp` (`max_pages: int = 200`). -/
def btcMaxPagesDefault : Nat := 200

/-- The chain of pages the loop visits (cut at the first empty page). -/
def pageChain (server : Option String → List BtcTx) :
    Nat → Option String → List (List BtcTx)
  | 0, _ => []
  | n + 1, last =>
    let page := server last
    if page.isEmpty then []
    else page :: pageChain server n (nextCursor page)

lemma fetch_pages_calls_le (server : Option String → List BtcTx) :
    ∀ (n : Nat) (last : Option String), (fetch_pages server n last).2 ≤ n := by
  intro n
  induction n with
  | zero => intro last; exact Nat.le_refl 0
  | succ n ih =>
    intro last
    unfold fetch_pages
    by_cases h : (server last).isEmpty
    · rw [if_pos h]
      omega
    · rw [if_neg h]
      have := ih (nextCursor (server last))
      simpa using Nat.add_le_add_right this 1

lemma fetch_pages_txs_eq (server : Option String → List BtcTx) :
    ∀ (n : Nat) (last : Option String),
    (fetch_pages server n last).1 = (pageChain server n last).flatten := by
  intro n
  induction n with
  | zero => intro last; rfl
  | succ n ih =>
    intro last
    unfold fetch_pages pageChain
    by_cases h : (server last).isEmpty
    · rw [if_pos h, if_pos h]
      rfl
    · rw [if_neg h, if_neg h]
      simp [ih]

lemma fetch_pages_calls_eq (server : Option String → List BtcTx)
    (hne : ∀ c, (server c).isEmpty = false) :
    ∀ (n : Nat) (last : Option String), (fetch_pages server n last).2 = n := by
  intro n
  induction n with
  | zero => intro last; rfl
  | succ n ih =>
    intro last
    unfold fetch_pages
    rw [if_neg (by rw [hne last]; exact Bool.false_ne_true)]
    simp [ih]

/-! ## Solana signature search (solana_alchemy.py lines 49–71, claims C5, C6).

Two views of `find_last_signature_before_ts`:
  * a cursor-level small-step view (`findStep` / `findWithFuel`) that mirrors
    the unbounded `while True` loop — `findWithFuel … fuel = none` means the
    loop has not returned within `fuel` iterations;
  * a page-sequence view (`find_last_signature_before_ts`) for functional
    correctness over a given finite sequence of pages (the pages successive
    cursors select from a finite history). -/

structure SigEntry where
  signature : String
  blockTime : Option Int
  deriving DecidableEq

/-- The qualification test of the inner loop: a present confirmation time
at-or-before the cutoff (entries with no `blockTime` are skipped). -/
def sigQualifies (ts : Int) (s : SigEntry) : Bool :=
  match s.blockTime with
  | some bt => decide (bt ≤ ts)
  | none => false

inductive SigStep
  | found (sig : String)
  | exhausted
  | nextPage (before : Option String)
  deriving DecidableEq

def findStep (server : Option String → List SigEntry) (ts : Int)
    (before : Option String) : SigStep :=
  let sigs := server before
  if sigs.isEmpty then .exhausted
  else
    match sigs.find? (sigQualifies ts) with
    | some s => .found s.signature
    | none =>
      match sigs.getLast? with
      | some s => .nextPage (some s.signature)
      | none => .nextPage before

def findWithFuel (server : Option String → List SigEntry) (ts : Int) :
    Option String → Nat → Option (Option String)
  | _, 0 => none
  | before, fuel + 1 =>
    match findStep server ts before with
    | .found s => some (some s)
    | .exhausted => some none
    | .nextPage b2 => findWithFuel server ts b2 fuel

/-- Page-sequence view of the backward signature search: consume the pages the
cursor chain yields, return the first qualifying signature inside the first
page that has one, stop with `none` at an empty page (exhausted history) or
when the page sequence runs out. -/
def find_last_signature_before_ts (pages : List (List SigEntry)) (ts : Int) :
    Option String :=
  match pages with
  | [] => none
  | page :: rest =>
    if page.isEmpty then none
    else
      match page.find? (sigQualifies ts) with
      | some s => some s.signature
      | none => find_last_signature_before_ts rest ts

/-! ### Solana native-balance read (solana_alchemy.py lines 74–91). -/

/-- An entry of `accountKeys`: either a jsonParsed object with a `pubkey`
field or a plain base58 string. -/
inductive AccountKey
  | obj (pubkey : String)
  | str (s : String)
  deriving DecidableEq

def pubkeyOf : AccountKey → String
  | .obj p => p
  | .str s => s

structure SolTx where
  accountKeys : List AccountKey
  postBalances : List Int
  deriving DecidableEq

inductive SolErr
  | fetchFailed
  | walletNotFound
  | indexOutOfRange
  deriving DecidableEq

/-- Python `list.index(x)`: the first index of `x`, `none` when absent
(where Python raises `ValueError`). -/
def pyIndex (wallet : String) : List String → Option Nat
  | [] => none
  | a :: rest =>
    if a = wallet then some 0 else (pyIndex wallet rest).map (· + 1)

/-- `sol_balance_from_transaction`: `fetched = none` models a missing or
malformed `getTransaction` result (falsy, or lacking `transaction`/`meta`);
`pubkeys.index(wallet)` is the first index of the wallet in the key list and
raises when absent; `post_balances[idx]` raises when out of range. -/
def sol_balance_from_transaction (wallet : String) (fetched : Option SolTx) :
    Except SolErr Int :=
  match fetched with
  | none => .error .fetchFailed
  | some tx =>
    match pyIndex wallet (tx.accountKeys.map pubkeyOf) with
    | none => .error .walletNotFound
    | some i =>
      match tx.postBalances.get? i with
      | some b => .ok b
      | none => .error .indexOutOfRange

lemma pyIndex_none_of_not_mem (wallet : String) :
    ∀ l : List String, wallet ∉ l → pyIndex wallet l = none := by
  intro l
  induction l with
  | nil => intro _; rfl
  | cons a rest ih =>
    intro h
    have ha : ¬ a = wallet := fun hh => h (by rw [hh]; exact List.mem_cons_self _ _)
    have hr : wallet ∉ rest := fun hh => h (List.mem_cons_of_mem _ hh)
    unfold pyIndex
    rw [if_neg ha, ih hr]
    rfl

lemma pyIndex_first_occurrence (wallet : String) :
    ∀ (l : List String) (i : Nat), l.get? i = some wallet →
    (∀ j, j < i → l.get? j ≠ some wallet) →
    pyIndex wallet l = some i := by
  intro l
  induction l with
  | nil => intro i h _; simp at h
  | cons a rest ih =>
    intro i h hfirst
    cases i with
    | zero =>
      have : a = wallet := by simpa using h
      unfold pyIndex
      rw [if_pos this]
    | succ j =>
      have ha : ¬ a = wallet := by
        have := hfirst 0 (Nat.succ_pos j)
        simpa using this
      have hr : rest.get? j = some wallet := by simpa using h
      have hfr : ∀ j2, j2 < j → rest.get? j2 ≠ some wallet := by
        intro j2 hj2 hc
        exact hfirst (j2 + 1) (Nat.succ_lt_succ hj2) (by simpa using hc)
      unfold pyIndex
      rw [if_neg ha, ih j hr hfr]
      rfl

lemma find_last_signature_eq_flatten (ts : Int) :
    ∀ pages : List (List SigEntry), (∀ p ∈ pages, p.isEmpty = false) →
    find_last_signature_before_ts pages ts =
      (pages.flatten.find? (sigQualifies ts)).map SigEntry.signature := by
  intro pages
  induction pages with
  | nil => intro _; rfl
  | cons page rest ih =>
    intro hp
    have hpage : page.isEmpty = false := hp page (List.mem_cons_self _ _)
    have hrest : ∀ p ∈ rest, p.isEmpty = false := fun p h =>
      hp p (List.mem_cons_of_mem _ h)
    unfold find_last_signature_before_ts
    rw [if_neg (by rw [hpage]; exact Bool.false_ne_true)]
    rw [List.flatten_cons, List.find?_append]
    rcases hfind : page.find? (sigQualifies ts) with _ | s
    · rw [ih hrest]
      rfl
    · rfl

/-- **C5.** The backward signature search over a finite sequence of
nonempty pages returns the first signature encountered in newest-first order
whose confirmation time is at-or-before the cutoff, or `none` when the
history is exhausted; the native balance read fails when the transaction
cannot be fetched, fails when the tracked wallet is absent from the
transaction's account keys, and otherwise returns the post-balance at the
wallet's (first) position in the account key list. -/
theorem solana_sig_search_and_balance_read
    (pages : List (List SigEntry)) (ts : Int)
    (hp : ∀ p ∈ pages, p.isEmpty = false)
    (wallet1 : String)
    (wallet2 : String) (tx2 : SolTx)
    (hno : wallet2 ∉ tx2.accountKeys.map pubkeyOf)
    (wallet3 : String) (tx3 : SolTx) (i : Nat) (b : Int)
    (hat : (tx3.accountKeys.map pubkeyOf).get? i = some wallet3)
    (hfirst : ∀ j, j < i →
      (tx3.accountKeys.map pubkeyOf).get? j ≠ some wallet3)
    (hb : tx3.postBalances.get? i = some b) :
    find_last_signature_before_ts pages ts =
      (pages.flatten.find? (sigQualifies ts)).map SigEntry.signature ∧
    sol_balance_from_transaction wallet1 none = .error .fetchFailed ∧
    sol_balance_from_transaction wallet2 (some tx2) =
      .error .walletNotFound ∧
    sol_balance_from_transaction wallet3 (some tx3) = .ok b := by
  refine ⟨find_last_signature_eq_flatten ts pages hp, rfl, ?_, ?_⟩
  · simp only [sol_balance_from_transaction,
      pyIndex_none_of_not_mem wallet2 _ hno]
  · simp only [sol_balance_from_transaction,
      pyIndex_first_occurrence wallet3 _ i hat hfirst, hb]

/-- Witness for C5 at concrete pages, transactions and wallets. -/
theorem solana_sig_search_and_balance_read_witness :
    find_last_signature_before_ts
        [[{ signature := "s1", blockTime := some 500 },
          { signature := "s2", blockTime := some 40 }]] 100 =
      (([[{ signature := "s1", blockTime := some 500 },
           { signature := "s2", blockTime := some 40 }]].flatten.find?
          (sigQualifies 100)).map SigEntry.signature) ∧
    sol_balance_from_transaction "W" none = .error .fetchFailed ∧
    sol_balance_from_transaction "W"
        (some { accountKeys := [.obj "X"], postBalances := [7] }) =
      .error .walletNotFound ∧
    sol_balance_from_transaction "W"
        (some { accountKeys := [.str "Y", .obj "W"],
                postBalances := [1, 2] }) = .ok 2 := by
  have h := solana_sig_search_and_balance_read
    [[{ signature := "s1", blockTime := some 500 },
      { signature := "s2", blockTime := some 40 }]] 100
    (by decide)
    "W"
    "W" { accountKeys := [.obj "X"], postBalances := [7] }
    (by decide)
    "W" { accountKeys := [.str "Y", .obj "W"], postBalances := [1, 2] } 1 2
    (by decide)
    (by
      intro j hj
      have hj0 : j = 0 := by omega
      subst hj0
      decide)
    (by decide)
  exact h

/-- **C6 (amended).** The UTXO history loop makes at most `max_pages`
(default 200) page fetches, and hitting the cap silently truncates: the
result is the plain concatenation of the pages visited (no error), with
exactly `max_pages` fetches on a server that never returns an empty page.
The Solana signature loop terminates *when* its empty-page or
timestamp-found condition is reached (one step suffices in either case), but
it is not bounded: on an adversarial stream it need not terminate (see the
counterexample). -/
theorem pagination_bounds
    (serverA : Option String → List BtcTx) (n : Nat) (lastA : Option String)
    (serverB : Option String → List BtcTx)
    (hB : ∀ c, (serverB c).isEmpty = false) (mB : Nat)
    (lastB : Option String)
    (serverC : Option String → List SigEntry) (tsC : Int)
    (bC : Option String) (fuelC : Nat)
    (hC : (serverC bC).isEmpty = true)
    (serverD : Option String → List SigEntry) (tsD : Int)
    (bD : Option String) (fuelD : Nat) (sD : SigEntry)
    (hD : (serverD bD).find? (sigQualifies tsD) = some sD) :
    (fetch_pages serverA btcMaxPagesDefault lastA).2 ≤ btcMaxPagesDefault ∧
    (fetch_pages serverA n lastA).1 = (pageChain serverA n lastA).flatten ∧
    (fetch_pages serverB mB lastB).2 = mB ∧
    findWithFuel serverC tsC bC (fuelC + 1) = some none ∧
    findWithFuel serverD tsD bD (fuelD + 1) = some (some sD.signature) := by
  refine ⟨fetch_pages_calls_le serverA btcMaxPagesDefault lastA,
          fetch_pages_txs_eq serverA n lastA,
          fetch_pages_calls_eq serverB hB mB lastB, ?_, ?_⟩
  · have hstep : findStep serverC tsC bC = SigStep.exhausted := by
      simp only [findStep, hC]
      rfl
    unfold findWithFuel
    rw [hstep]
  · have hne : (serverC bC).isEmpty = true := hC
    have hempty : (serverD bD).isEmpty = false := by
      rcases h : serverD bD with _ | ⟨x, xs⟩
      · rw [h] at hD
        simp at hD
      · rfl
    have hstep : findStep serverD tsD bD = SigStep.found sD.signature := by
      simp only [findStep, hempty, hD]
      simp
    unfold findWithFuel
    rw [hstep]

/-- A malicious signature-history stream: every page is the same nonempty
page whose sole entry has no `blockTime` (so it is skipped and can never
qualify). -/
def malSigServer : Option String → List SigEntry :=
  fun _ => [{ signature := "s0", blockTime := none }]

/-- The loop of `find_last_signature_before_ts` has not returned within any
number of iterations: `while True` diverges on this stream. -/
def sigSearchDiverges (server : Option String → List SigEntry) (ts : Int) :
    Prop :=
  ∀ fuel : Nat, findWithFuel server ts none fuel = none

lemma malSigServer_step (b : Option String) :
    findStep malSigServer 0 b = SigStep.nextPage (some "s0") := rfl

/-- **C6 counterexample.** The Solana signature-history loop does *not*
terminate on every response stream: on the concrete malicious stream
`malSigServer` the loop never returns, for any amount of fuel. -/
theorem solana_sig_loop_divergence_cex : sigSearchDiverges malSigServer 0 := by
  have key : ∀ (fuel : Nat) (b : Option String),
      findWithFuel malSigServer 0 b fuel = none := by
    intro fuel
    induction fuel with
    | zero => intro b; rfl
    | succ m ih =>
      intro b
      unfold findWithFuel
      rw [malSigServer_step b]
      exact ih (some "s0")
  intro fuel
  exact key fuel none

/-- Witness for the amended C6 at concrete servers. -/
theorem pagination_bounds_witness :
    (fetch_pages (fun _ => []) btcMaxPagesDefault none).2 ≤
      btcMaxPagesDefault ∧
    (fetch_pages (fun _ => []) 3 none).1 =
      (pageChain (fun _ => []) 3 none).flatten ∧
    (fetch_pages (fun _ => [dupTx1]) 2 none).2 = 2 ∧
    findWithFuel (fun _ => []) 0 none 1 = some none ∧
    findWithFuel (fun _ => [{ signature := "sig9", blockTime := some 5 }])
      10 none 1 = some (some "sig9") := by
  have h := pagination_bounds (fun _ => []) 3 none
    (fun _ => [dupTx1]) (fun _ => rfl) 2 none
    (fun _ => []) 0 none 0 rfl
    (fun _ => [{ signature := "sig9", blockTime := some 5 }]) 10 none 0
    { signature := "sig9", blockTime := some 5 } (by decide)
  exact h

/-! ## Resilient request client (`request_with_retry`, btc.py lines 30–57,
claim C4).

One call's outcome is either a successful response (an abstract payload) or
an exception: connection failure, timeout, truncated/chunked transfer
failure, or an HTTP error status (`raise_for_status`).  `outcomes n` is what
the `n`-th call (1-based) would produce; backoff sleeping does not affect
the result and is not modelled. -/

inductive NetExc
  | connErr
  | timeoutErr
  | chunkedErr
  | httpStatus (code : Nat)
  deriving DecidableEq

inductive CallResult
  | success (resp : Nat)
  | exc (e : NetExc)
  deriving DecidableEq

/-- The transient status whitelist `(429, 500, 502, 503, 504)`. -/
def transientStatus (c : Nat) : Bool :=
  c = 429 ∨ c = 500 ∨ c = 502 ∨ c = 503 ∨ c = 504

/-- Whether an exception is absorbed by the retry loop. -/
def retryableExc : NetExc → Bool
  | .httpStatus c => transientStatus c
  | _ => true

inductive RetryResult
  | ok (resp : Nat) (calls : Nat)
  | fatalHttp (code : Nat) (calls : Nat)
  | exhausted (url : String) (lastExc : Option NetExc)
  deriving DecidableEq

def MAX_RETRIES : Nat := 5

/-- The attempt loop: `attempt` is the 1-based attempt number, `remaining`
the attempts left, `lastExc` the `last_exc` variable.  Falling off the loop
raises `RuntimeError(f"Request failed after {MAX_RETRIES} retries: {url}")
from last_exc`. -/
def retryAux (outcomes : Nat → CallResult) (url : String) :
    Nat → Nat → Option NetExc → RetryResult
  | 0, _, lastExc => .exhausted url lastExc
  | remaining + 1, attempt, _ =>
    match outcomes attempt with
    | .success r => .ok r attempt
    | .exc (.httpStatus c) =>
      if transientStatus c then
        retryAux outcomes url remaining (attempt + 1) (some (.httpStatus c))
      else .fatalHttp c attempt
    | .exc e => retryAux outcomes url remaining (attempt + 1) (some e)

def request_with_retry (outcomes : Nat → CallResult) (url : String) :
    RetryResult :=
  retryAux outcomes url MAX_RETRIES 1 none

/-- Number of calls actually made for a given result (exhaustion means all
`MAX_RETRIES` calls were made). -/
def callsOf : RetryResult → Nat
  | .ok _ n => n
  | .fatalHttp _ n => n
  | .exhausted _ _ => MAX_RETRIES

lemma retryAux_calls_le (outcomes : Nat → CallResult) (url : String) :
    ∀ (remaining attempt : Nat) (lastExc : Option NetExc),
    attempt + remaining = MAX_RETRIES + 1 →
    callsOf (retryAux outcomes url remaining attempt lastExc) ≤ MAX_RETRIES := by
  intro remaining
  induction remaining with
  | zero =>
    intro attempt lastExc _
    exact Nat.le_refl MAX_RETRIES
  | succ m ih =>
    intro attempt lastExc hsum
    unfold retryAux
    split
    · simp only [callsOf]
      omega
    · split
      · exact ih (attempt + 1) _ (by omega)
      · simp only [callsOf]
        omega
    · exact ih (attempt + 1) _ (by omega)

/-- Outcome `n` is a retryable failure. -/
def retryableOutcome (outcomes : Nat → CallResult) (n : Nat) : Prop :=
  ∃ e, outcomes n = .exc e ∧ retryableExc e = true

lemma retryAux_all_fail (outcomes : Nat → CallResult) (url : String) :
    ∀ (remaining attempt : Nat) (lastExc : Option NetExc),
    0 < remaining →
    (∀ n, attempt ≤ n → n < attempt + remaining → retryableOutcome outcomes n) →
    ∃ e, outcomes (attempt + remaining - 1) = .exc e ∧
      retryAux outcomes url remaining attempt lastExc =
        .exhausted url (some e) := by
  intro remaining
  induction remaining with
  | zero => intro attempt lastExc h; omega
  | succ m ih =>
    intro attempt lastExc _ hall
    obtain ⟨e1, he1, hr1⟩ := hall attempt (Nat.le_refl attempt) (by omega)
    cases m with
    | zero =>
      refine ⟨e1, by simpa using he1, ?_⟩
      unfold retryAux
      rw [he1]
      rcases e1 with _ | _ | _ | c
      · rfl
      · rfl
      · rfl
      · have hc : transientStatus c = true := by
          simpa [retryableExc] using hr1
        show (if transientStatus c = true then
            retryAux outcomes url 0 (attempt + 1) (some (NetExc.httpStatus c))
          else RetryResult.fatalHttp c attempt) =
          RetryResult.exhausted url (some (NetExc.httpStatus c))
        rw [if_pos hc]
        rfl
    | succ m2 =>
      have hrec := ih (attempt + 1) (some e1) (by omega)
        (fun n h1 h2 => hall n (by omega) (by omega))
      obtain ⟨e2, he2, hr2⟩ := hrec
      refine ⟨e2, by
        rw [show attempt + (m2 + 1 + 1) - 1 = attempt + 1 + (m2 + 1) - 1 by
          omega]
        exact he2, ?_⟩
      unfold retryAux
      rw [he1]
      rcases e1 with _ | _ | _ | c
      · exact hr2
      · exact hr2
      · exact hr2
      · have hc : transientStatus c = true := by
          simpa [retryableExc] using hr1
        show (if transientStatus c = true then
            retryAux outcomes url (m2 + 1) (attempt + 1)
              (some (NetExc.httpStatus c))
          else RetryResult.fatalHttp c attempt) =
          RetryResult.exhausted url (some e2)
        rw [if_pos hc]
        exact hr2

lemma retryAux_step_exc (outcomes : Nat → CallResult) (url : String)
    (remaining attempt : Nat) (lastExc : Option NetExc) (e : NetExc)
    (h : outcomes attempt = .exc e) (hr : retryableExc e = true) :
    retryAux outcomes url (remaining + 1) attempt lastExc =
      retryAux outcomes url remaining (attempt + 1) (some e) := by
  conv_lhs => unfold retryAux
  rw [h]
  rcases e with _ | _ | _ | c
  · rfl
  · rfl
  · rfl
  · have hc : transientStatus c = true := by simpa [retryableExc] using hr
    show (if transientStatus c = true then
        retryAux outcomes url remaining (attempt + 1)
          (some (NetExc.httpStatus c))
      else RetryResult.fatalHttp c attempt) =
      retryAux outcomes url remaining (attempt + 1)
        (some (NetExc.httpStatus c))
    rw [if_pos hc]

lemma retryAux_step_success (outcomes : Nat → CallResult) (url : String)
    (remaining attempt : Nat) (lastExc : Option NetExc) (r : Nat)
    (h : outcomes attempt = .success r) :
    retryAux outcomes url (remaining + 1) attempt lastExc =
      .ok r attempt := by
  conv_lhs => unfold retryAux
  rw [h]

/-- **C4.** The client makes at most 5 attempts; a first call failing with a
non-transient HTTP status (anything outside {429,500,502,503,504}) raises
immediately after exactly one call; failing with HTTP 503 three times and
then succeeding returns the successful response after exactly 4 calls; and
when all 5 attempts fail with retryable errors it raises an error
identifying the URL and chaining the last underlying cause. -/
theorem request_with_retry_policy
    (outA : Nat → CallResult) (urlA : String)
    (outB : Nat → CallResult) (urlB : String) (cB : Nat)
    (hB1 : outB 1 = .exc (.httpStatus cB))
    (hB2 : transientStatus cB = false)
    (outC : Nat → CallResult) (urlC : String) (rC : Nat)
    (hC1 : ∀ n, 1 ≤ n → n ≤ 3 → outC n = .exc (.httpStatus 503))
    (hC2 : outC 4 = .success rC)
    (outD : Nat → CallResult) (urlD : String)
    (hD : ∀ n, 1 ≤ n → n ≤ 5 → retryableOutcome outD n) :
    callsOf (request_with_retry outA urlA) ≤ 5 ∧
    request_with_retry outB urlB = .fatalHttp cB 1 ∧
    request_with_retry outC urlC = .ok rC 4 ∧
    (∃ e, outD 5 = .exc e ∧
      request_with_retry outD urlD = .exhausted urlD (some e)) := by
  refine ⟨retryAux_calls_le outA urlA MAX_RETRIES 1 none rfl, ?_, ?_, ?_⟩
  · have hnB : ¬ transientStatus cB = true := by
      rw [hB2]
      exact Bool.false_ne_true
    unfold request_with_retry MAX_RETRIES retryAux
    rw [hB1]
    show (if transientStatus cB = true then
        retryAux outB urlB 4 (1 + 1) (some (NetExc.httpStatus cB))
      else RetryResult.fatalHttp cB 1) = RetryResult.fatalHttp cB 1
    rw [if_neg hnB]
  · have h503 : retryableExc (.httpStatus 503) = true := by decide
    show retryAux outC urlC (4 + 1) 1 none = RetryResult.ok rC 4
    rw [retryAux_step_exc outC urlC 4 1 none (NetExc.httpStatus 503)
      (hC1 1 (by omega) (by omega)) h503]
    show retryAux outC urlC (3 + 1) 2 (some (.httpStatus 503)) =
      RetryResult.ok rC 4
    rw [retryAux_step_exc outC urlC 3 2 (some (.httpStatus 503))
      (NetExc.httpStatus 503) (hC1 2 (by omega) (by omega)) h503]
    show retryAux outC urlC (2 + 1) 3 (some (.httpStatus 503)) =
      RetryResult.ok rC 4
    rw [retryAux_step_exc outC urlC 2 3 (some (.httpStatus 503))
      (NetExc.httpStatus 503) (hC1 3 (by omega) (by omega)) h503]
    show retryAux outC urlC (1 + 1) 4 (some (.httpStatus 503)) =
      RetryResult.ok rC 4
    rw [retryAux_step_success outC urlC 1 4 (some (.httpStatus 503)) rC hC2]
  · have := retryAux_all_fail outD urlD MAX_RETRIES 1 none (by decide)
      (fun n h1 h2 => hD n h1 (by revert h2; unfold MAX_RETRIES; omega))
    simpa [request_with_retry, MAX_RETRIES] using this

/-- Witness for C4 at concrete outcome streams. -/
theorem request_with_retry_policy_witness :
    callsOf (request_with_retry (fun _ => .success 1) "a") ≤ 5 ∧
    request_with_retry (fun _ => .exc (.httpStatus 404)) "b" =
      .fatalHttp 404 1 ∧
    request_with_retry
      (fun n => if n ≤ 3 then .exc (.httpStatus 503) else .success 77) "c" =
      .ok 77 4 ∧
    (∃ e, (fun _ => CallResult.exc NetExc.connErr) 5 = .exc e ∧
      request_with_retry (fun _ => CallResult.exc NetExc.connErr) "d" =
        .exhausted "d" (some e)) := by
  have h := request_with_retry_policy
    (fun _ => .success 1) "a"
    (fun _ => .exc (.httpStatus 404)) "b" 404 rfl (by decide)
    (fun n => if n ≤ 3 then .exc (.httpStatus 503) else .success 77) "c" 77
    (by
      intro n h1 h2
      simp only [if_pos h2])
    (by decide)
    (fun _ => .exc .connErr) "d"
    (fun n _ _ => ⟨.connErr, rfl, rfl⟩)
  exact h

/-! ## Price oracle (btc.py lines 63–94, eth_alchemy.py lines 86–144,
solana_alchemy.py lines 181–238, claims C2, C3, C10).

The network fetch is an `Except` parameter (errors are exceptions the fetch
may raise), timestamps stay abstract: `parseIso` is
`datetime.fromisoformat`, returning `none` where Python raises, and
`floatParse` is `float(...)` on the value string.  `datetime.min` (the key
of a missing or empty timestamp) precedes every timestamp the API can
return, so a parsed timestamp `t` gets key `t + 1` and a missing one key
`0`.  Prices are exact rationals. -/

structure PricePoint where
  timestamp : Option String
  value : Option String
  deriving DecidableEq

/-- The `data` field of the price-API response: a dict (whose `"prices"` is a
list or not, and which is truthy or not), a bare list of points, absent, or
some other JSON value. -/
inductive DataField
  | dictD (prices : Option (List PricePoint)) (truthy : Bool)
  | listD (ps : List PricePoint)
  | absent
  | otherD (truthy : Bool)
  deriving DecidableEq

structure Payload where
  data : DataField
  prices : Option (List PricePoint)
  deriving DecidableEq

/-- `_extract_price_points`: nested dict with point list, bare list, or
top-level point list; otherwise no points.  (`prices = none` models a
top-level `prices` that is absent or not a list.) -/
def extract_price_points (p : Payload) : List PricePoint :=
  match p.data with
  | .dictD (some ps) _ => ps
  | .listD ps => ps
  | _ => p.prices.getD []

inductive PriceErr
  | noPriceData
  | exn
  deriving DecidableEq

/-- `parse_ts`: missing or empty timestamp string ↦ `datetime.min` (key 0);
otherwise `datetime.fromisoformat` (key `t + 1`), raising on a malformed
string. -/
def keyOfPoint (parseIso : String → Option Nat) (p : PricePoint) :
    Except PriceErr Nat :=
  match p.timestamp with
  | none => .ok 0
  | some s =>
    if s = "" then .ok 0
    else
      match parseIso s with
      | some t => .ok (t + 1)
      | none => .error .exn

/-- `float(latest["value"])`: raises when the `value` field is missing or is
not a number. -/
def convValue (floatParse : String → Option Rat) (p : PricePoint) :
    Except PriceErr Rat :=
  match p.value with
  | none => .error .exn
  | some v =>
    match floatParse v with
    | some q => .ok q
    | none => .error .exn

/-- Python `max(points, key=parse_ts)`: scans left to right, replacing the
current maximum only on a strictly greater key (so the first maximal element
wins), evaluating the key of each element as it goes (and raising where the
key raises). -/
def pyMaxGo (key : PricePoint → Except PriceErr Nat) (cur : PricePoint)
    (curKey : Nat) : List PricePoint → Except PriceErr PricePoint
  | [] => .ok cur
  | x :: xs =>
    match key x with
    | .error e => .error e
    | .ok kx =>
      if curKey < kx then pyMaxGo key x kx xs else pyMaxGo key cur curKey xs

def select_latest (parseIso : String → Option Nat) (x : PricePoint)
    (xs : List PricePoint) : Except PriceErr PricePoint :=
  match keyOfPoint parseIso x with
  | .error e => .error e
  | .ok kx => pyMaxGo (keyOfPoint parseIso) x kx xs

/-- `STABLE_FALLBACK = {"USDC": 1.0, "USDT": 1.0}` (eth_alchemy.py). -/
def STABLE_FALLBACK : List String := ["USDC", "USDT"]

/-- The body of the `try` block of the Ethereum variant's
`fx_rate_usd_end_of_day` (also the whole Bitcoin variant, minus the
stablecoin branch). -/
def eth_fx_try (fetch : Except PriceErr Payload)
    (parseIso : String → Option Nat) (floatParse : String → Option Rat)
    (symbol : String) : Except PriceErr Rat :=
  match fetch with
  | .error e => .error e
  | .ok payload =>
    match extract_price_points payload with
    | [] =>
      if symbol ∈ STABLE_FALLBACK then .ok 1 else .error .noPriceData
    | x :: xs =>
      match select_latest parseIso x xs with
      | .error e => .error e
      | .ok latest => convValue floatParse latest

/-- `fx_rate_usd_end_of_day` (eth_alchemy.py lines 115–144): the `try` body
wrapped in `except Exception: return 1.0 when stable, else re-raise`. -/
def fx_rate_usd_end_of_day_eth (fetch : Except PriceErr Payload)
    (parseIso : String → Option Nat) (floatParse : String → Option Rat)
    (symbol : String) : Except PriceErr Rat :=
  match eth_fx_try fetch parseIso floatParse symbol with
  | .ok v => .ok v
  | .error e => if symbol ∈ STABLE_FALLBACK then .ok 1 else .error e

/-- `fx_rate_usd_end_of_day` (btc.py lines 79–94): no stablecoin fallback,
no exception handler; empty point list raises "No price points returned". -/
def fx_rate_usd_end_of_day_btc (fetch : Except PriceErr Payload)
    (parseIso : String → Option Nat) (floatParse : String → Option Rat) :
    Except PriceErr Rat :=
  match fetch with
  | .error e => .error e
  | .ok payload =>
    match extract_price_points payload with
    | [] => .error .noPriceData
    | x :: xs =>
      match select_latest parseIso x xs with
      | .error e => .error e
      | .ok latest => convValue floatParse latest

/-! ### Solana price lookup (solana_alchemy.py lines 181–238). -/

def COINGECKO_IDS : List (String × String) := [("JITOSOL", "jito-staked-sol")]

/-- `STABLES = {"USDC", "USDT", "USX"}` (solana_alchemy.py). -/
def STABLES : List String := ["USDC", "USDT", "USX"]

/-- ASCII upper-casing, as `str.upper()` acts on the ASCII symbols used. -/
def pyUpperChar (c : Char) : Char :=
  if 97 ≤ c.toNat ∧ c.toNat ≤ 122 then Char.ofNat (c.toNat - 32) else c

def pyUpper (s : String) : String :=
  String.mk (s.data.map pyUpperChar)

def lookupCoingeckoId (symbol : String) : Option String :=
  (COINGECKO_IDS.find? (fun kv => kv.1 = pyUpper symbol)).map
    (fun kv => kv.2)

/-- Truthiness of `prices.get("data", [])`. -/
def solDataTruthy : DataField → Bool
  | .dictD _ t => t
  | .listD ps => !ps.isEmpty
  | .absent => false
  | .otherD t => t

/-- `float(data[0]["value"])`: the value of the *first* element when `data`
is a nonempty list; indexing any other truthy value raises. -/
def solFirstValue (floatParse : String → Option Rat) :
    DataField → Except PriceErr Rat
  | .listD (x :: _) => convValue floatParse x
  | _ => .error .exn

/-- `price_on_date_usd` (solana_alchemy.py lines 211–229): try the primary
source, swallowing every exception; fall back to the secondary source for
symbols with a mapped id; otherwise report "unavailable" (`none`). -/
def price_on_date_usd (fetch : Except PriceErr Payload)
    (floatParse : String → Option Rat) (coingecko : String → Option Rat)
    (symbol : String) : Option Rat :=
  let tryAlchemy : Except PriceErr (Option Rat) :=
    match fetch with
    | .error e => .error e
    | .ok payload =>
      if solDataTruthy payload.data then
        match solFirstValue floatParse payload.data with
        | .error e => .error e
        | .ok v => .ok (some v)
      else .ok none
  let viaAlchemy : Option Rat :=
    match tryAlchemy with
    | .ok r => r
    | .error _ => none
  match viaAlchemy with
  | some v => some v
  | none =>
    match lookupCoingeckoId symbol with
    | some cid => coingecko cid
    | none => none

/-- `fallback_price` (solana_alchemy.py lines 232–238). -/
def fallback_price (label : String) : Option Rat :=
  if label ∈ STABLES then some 1 else none

/-- Python `x or 0.0` as applied to the optional SOL price by the caller. -/
def pyOrZero (x : Option Rat) : Rat :=
  match x with
  | some v => if v = 0 then 0 else v
  | none => 0

/-- The key a point would get if its key computation succeeds (0 when it
raises; used only to state maximality). -/
def keyD (parseIso : String → Option Nat) (p : PricePoint) : Nat :=
  match keyOfPoint parseIso p with
  | .ok n => n
  | .error _ => 0

lemma pyMaxGo_spec (parseIso : String → Option Nat) :
    ∀ (xs : List PricePoint) (cur : PricePoint) (curKey : Nat),
    keyOfPoint parseIso cur = .ok curKey →
    (∀ x ∈ xs, (keyOfPoint parseIso x).isOk = true) →
    ∃ sel, pyMaxGo (keyOfPoint parseIso) cur curKey xs = .ok sel ∧
      (sel = cur ∨ sel ∈ xs) ∧
      curKey ≤ keyD parseIso sel ∧
      (∀ x ∈ xs, keyD parseIso x ≤ keyD parseIso sel) := by
  intro xs
  induction xs with
  | nil =>
    intro cur curKey hcur _
    refine ⟨cur, rfl, Or.inl rfl, ?_, ?_⟩
    · unfold keyD
      rw [hcur]
    · intro x hx
      cases hx
  | cons x xs ih =>
    intro cur curKey hcur hok
    have hxok : (keyOfPoint parseIso x).isOk = true :=
      hok x (List.mem_cons_self _ _)
    rcases hkx : keyOfPoint parseIso x with e | kx
    · rw [hkx] at hxok
      cases hxok
    · have hrest : ∀ y ∈ xs, (keyOfPoint parseIso y).isOk = true :=
        fun y hy => hok y (List.mem_cons_of_mem _ hy)
      unfold pyMaxGo
      rw [hkx]
      by_cases hlt : curKey < kx
      · obtain ⟨sel, hsel, hmem, hle, hall⟩ := ih x kx hkx hrest
        refine ⟨sel, ?_, ?_, ?_, ?_⟩
        · show (if curKey < kx then pyMaxGo (keyOfPoint parseIso) x kx xs
              else pyMaxGo (keyOfPoint parseIso) cur curKey xs) =
            Except.ok sel
          rw [if_pos hlt]
          exact hsel
        · rcases hmem with h | h
          · exact Or.inr (by rw [h]; exact List.mem_cons_self _ _)
          · exact Or.inr (List.mem_cons_of_mem _ h)
        · have hcurx : keyD parseIso x = kx := by unfold keyD; rw [hkx]
          omega
        · intro y hy
          rcases List.mem_cons.mp hy with h | h
          · rw [h]
            have : keyD parseIso x = kx := by unfold keyD; rw [hkx]
            omega
          · exact hall y h
      · obtain ⟨sel, hsel, hmem, hle, hall⟩ := ih cur curKey hcur hrest
        refine ⟨sel, ?_, ?_, hle, ?_⟩
        · show (if curKey < kx then pyMaxGo (keyOfPoint parseIso) x kx xs
              else pyMaxGo (keyOfPoint parseIso) cur curKey xs) =
            Except.ok sel
          rw [if_neg hlt]
          exact hsel
        · rcases hmem with h | h
          · exact Or.inl h
          · exact Or.inr (List.mem_cons_of_mem _ h)
        · intro y hy
          rcases List.mem_cons.mp hy with h | h
          · rw [h]
            have : keyD parseIso x = kx := by unfold keyD; rw [hkx]
            omega
          · exact hall y h

lemma select_latest_spec (parseIso : String → Option Nat) (x : PricePoint)
    (xs : List PricePoint)
    (hok : ∀ p ∈ x :: xs, (keyOfPoint parseIso p).isOk = true) :
    ∃ sel, select_latest parseIso x xs = .ok sel ∧ sel ∈ x :: xs ∧
      (∀ q ∈ x :: xs, keyD parseIso q ≤ keyD parseIso sel) := by
  have hxok : (keyOfPoint parseIso x).isOk = true :=
    hok x (List.mem_cons_self _ _)
  rcases hkx : keyOfPoint parseIso x with e | kx
  · rw [hkx] at hxok
    cases hxok
  · obtain ⟨sel, hsel, hmem, hle, hall⟩ := pyMaxGo_spec parseIso xs x kx hkx
      (fun y hy => hok y (List.mem_cons_of_mem _ hy))
    refine ⟨sel, ?_, ?_, ?_⟩
    · unfold select_latest
      rw [hkx]
      exact hsel
    · rcases hmem with h | h
      · rw [h]; exact List.mem_cons_self _ _
      · exact List.mem_cons_of_mem _ h
    · intro q hq
      rcases List.mem_cons.mp hq with h | h
      · rw [h]
        have : keyD parseIso x = kx := by unfold keyD; rw [hkx]
        omega
      · exact hall q h

/-- **C2 (amended).** For a non-empty extracted point list whose timestamps
parse, the Bitcoin and Ethereum variants return the value of a point with
the maximal timestamp key within the day, where a point lacking a timestamp
is minimally old (key 0) and is selected only when no point has a parsed
timestamp; the Solana variant's price lookup instead returns the value of
the *first* point of the data list, regardless of timestamps. -/
theorem price_oracle_latest_point
    (parseIso : String → Option Nat) (floatParse : String → Option Rat)
    (payload : Payload) (symbol : String) (x : PricePoint)
    (xs : List PricePoint)
    (hpts : extract_price_points payload = x :: xs)
    (hok : ∀ p ∈ x :: xs, (keyOfPoint parseIso p).isOk = true)
    (floatParse2 : String → Option Rat)
    (coingecko2 : String → Option Rat) (symbol2 : String)
    (payload2 : Payload) (y : PricePoint) (ys : List PricePoint) (v : Rat)
    (hdata2 : payload2.data = DataField.listD (y :: ys))
    (hconv2 : convValue floatParse2 y = .ok v) :
    (∃ sel ∈ x :: xs,
      (∀ q ∈ x :: xs, keyD parseIso q ≤ keyD parseIso sel) ∧
      ((∃ q ∈ x :: xs, 0 < keyD parseIso q) → 0 < keyD parseIso sel) ∧
      fx_rate_usd_end_of_day_btc (.ok payload) parseIso floatParse =
        convValue floatParse sel ∧
      eth_fx_try (.ok payload) parseIso floatParse symbol =
        convValue floatParse sel ∧
      (∀ w, convValue floatParse sel = .ok w →
        fx_rate_usd_end_of_day_eth (.ok payload) parseIso floatParse symbol
          = .ok w)) ∧
    price_on_date_usd (.ok payload2) floatParse2 coingecko2 symbol2 =
      some v := by
  obtain ⟨sel, hsel, hmem, hmax⟩ := select_latest_spec parseIso x xs hok
  constructor
  · refine ⟨sel, hmem, hmax, ?_, ?_, ?_, ?_⟩
    · intro ⟨q, hq, hqpos⟩
      have := hmax q hq
      omega
    · simp only [fx_rate_usd_end_of_day_btc, hpts, hsel]
    · simp only [eth_fx_try, hpts, hsel]
    · intro w hw
      simp only [fx_rate_usd_end_of_day_eth, eth_fx_try, hpts, hsel, hw]
  · simp only [price_on_date_usd, hdata2, solDataTruthy, solFirstValue,
      hconv2, List.isEmpty_cons, Bool.not_false, if_pos]

/-- Concrete ISO-timestamp parser for the worked example (10:00Z and 20:00Z
of the day). -/
def exTsParse : String → Option Nat := fun s =>
  if s = "2024-01-01T10:00:00+00:00" then some 36000
  else if s = "2024-01-01T20:00:00+00:00" then some 72000
  else none

/-- Concrete float parser for the worked example. -/
def exFloatParse : String → Option Rat := fun s =>
  if s = "1.0" then some 1 else if s = "1.5" then some (3 / 2) else none

def exPoints : List PricePoint :=
  [{ timestamp := some "2024-01-01T10:00:00+00:00", value := some "1.0" },
   { timestamp := some "2024-01-01T20:00:00+00:00", value := some "1.5" }]

def exPayload : Payload := { data := .listD exPoints, prices := none }

/-- **C2 counterexample.** On the worked two-point day (values 1.0 at
10:00Z, 1.5 at 20:00Z) the Bitcoin and Ethereum variants return 1.5
(latest-in-day), but the Solana variant's price lookup returns 1.0 — the
first point, not the point with the maximum timestamp — so the claim fails
for the Solana variant. -/
theorem price_oracle_solana_first_point_cex :
    fx_rate_usd_end_of_day_btc (.ok exPayload) exTsParse exFloatParse =
      .ok (3 / 2) ∧
    fx_rate_usd_end_of_day_eth (.ok exPayload) exTsParse exFloatParse "SOL" =
      .ok (3 / 2) ∧
    price_on_date_usd (.ok exPayload) exFloatParse (fun _ => none) "SOL" =
      some 1 ∧
    (1 : Rat) ≠ 3 / 2 := by
  refine ⟨rfl, rfl, rfl, by norm_num⟩

/-- Witness for the amended C2 at the worked example. -/
theorem price_oracle_latest_point_witness :
    (∃ sel ∈ exPoints,
      (∀ q ∈ exPoints, keyD exTsParse q ≤ keyD exTsParse sel) ∧
      ((∃ q ∈ exPoints, 0 < keyD exTsParse q) → 0 < keyD exTsParse sel) ∧
      fx_rate_usd_end_of_day_btc (.ok exPayload) exTsParse exFloatParse =
        convValue exFloatParse sel ∧
      eth_fx_try (.ok exPayload) exTsParse exFloatParse "ETH" =
        convValue exFloatParse sel ∧
      (∀ w, convValue exFloatParse sel = .ok w →
        fx_rate_usd_end_of_day_eth (.ok exPayload) exTsParse exFloatParse
          "ETH" = .ok w)) ∧
    price_on_date_usd (.ok exPayload) exFloatParse (fun _ => none) "SOL" =
      some 1 := by
  have h := price_oracle_latest_point exTsParse exFloatParse exPayload "ETH"
    { timestamp := some "2024-01-01T10:00:00+00:00", value := some "1.0" }
    [{ timestamp := some "2024-01-01T20:00:00+00:00", value := some "1.5" }]
    (by decide) (by decide)
    exFloatParse (fun _ => none) "SOL" exPayload
    { timestamp := some "2024-01-01T10:00:00+00:00", value := some "1.0" }
    [{ timestamp := some "2024-01-01T20:00:00+00:00", value := some "1.5" }]
    1 rfl rfl
  exact h

/-- `token_usd_value` (solana_alchemy.py lines 301–335), with the network
inputs parameterised: `balOf ta` is what `spl_balance_at_ts_via_last_tx`
returns for token account `ta`, and `px` is what
`price_on_date_usd(price_symbol, ondate)` returns.  Loops over the mint's
token accounts summing the balances that could be derived; returns 0.0
(without raising) when there are no token accounts, when no account yields a
balance, or when neither price nor stablecoin fallback is available. -/
def token_usd_value (token_accounts : List String)
    (balOf : String → Option Rat) (px : Option Rat) (label : String) : Rat :=
  if token_accounts.isEmpty then 0
  else
    let bals := token_accounts.filterMap balOf
    if bals.isEmpty then 0
    else
      let total := bals.sum
      let px2 :=
        match px with
        | some p => some p
        | none => fallback_price label
      match px2 with
      | none => 0
      | some p => total * p

/-- **C3.** With no price points: the Bitcoin variant (which designates no
stablecoins) fails with its "no price data" error for every symbol; the
Ethereum variant returns exactly 1.0 for its designated stablecoins
(USDC, USDT) and fails with "no price data" otherwise; the Solana variant
returns "unavailable" (`none`, no error) when the secondary source also has
nothing, its designated stablecoins (USDC, USDT, USX) fall back to exactly
1.0 via `fallback_price`, and for any other symbol the caller substitutes 0
(`token_usd_value` returns 0, `x or 0.0` yields 0). -/
theorem price_oracle_no_points
    (parseIso1 : String → Option Nat) (floatParse1 : String → Option Rat)
    (payload1 : Payload) (h1 : extract_price_points payload1 = [])
    (parseIso2 : String → Option Nat) (floatParse2 : String → Option Rat)
    (payload2 : Payload) (symbol2 : String)
    (h2 : extract_price_points payload2 = [])
    (hs2 : symbol2 ∈ STABLE_FALLBACK)
    (parseIso3 : String → Option Nat) (floatParse3 : String → Option Rat)
    (payload3 : Payload) (symbol3 : String)
    (h3 : extract_price_points payload3 = [])
    (hs3 : symbol3 ∉ STABLE_FALLBACK)
    (floatParse4 : String → Option Rat) (coingecko4 : String → Option Rat)
    (symbol4 : String) (payload4 : Payload)
    (h4 : solDataTruthy payload4.data = false)
    (hcg4 : ∀ cid, coingecko4 cid = none)
    (label5 : String) (hs5 : label5 ∈ STABLES)
    (tas6 : List String) (bal6 : String → Option Rat) (label6 : String)
    (hs6 : label6 ∉ STABLES) :
    fx_rate_usd_end_of_day_btc (.ok payload1) parseIso1 floatParse1 =
      .error .noPriceData ∧
    fx_rate_usd_end_of_day_eth (.ok payload2) parseIso2 floatParse2 symbol2 =
      .ok 1 ∧
    fx_rate_usd_end_of_day_eth (.ok payload3) parseIso3 floatParse3 symbol3 =
      .error .noPriceData ∧
    price_on_date_usd (.ok payload4) floatParse4 coingecko4 symbol4 = none ∧
    fallback_price label5 = some 1 ∧
    token_usd_value tas6 bal6 none label6 = 0 ∧
    pyOrZero none = 0 := by
  refine ⟨?_, ?_, ?_, ?_, ?_, ?_, rfl⟩
  · simp only [fx_rate_usd_end_of_day_btc, h1]
  · simp only [fx_rate_usd_end_of_day_eth, eth_fx_try, h2, if_pos hs2]
  · simp only [fx_rate_usd_end_of_day_eth, eth_fx_try, h3, if_neg hs3]
  · simp only [price_on_date_usd, h4]
    rcases hid : lookupCoingeckoId symbol4 with _ | cid
    · simp
    · simp [hcg4 cid]
  · unfold fallback_price
    rw [if_pos hs5]
  · unfold token_usd_value
    by_cases he : tas6.isEmpty
    · rw [if_pos he]
    · rw [if_neg he]
      by_cases hb : (tas6.filterMap bal6).isEmpty
      · simp only [if_pos hb]
      · simp only [if_neg hb, fallback_price, if_neg hs6]

/-- Witness for C3 at concrete payloads and symbols. -/
theorem price_oracle_no_points_witness :
    fx_rate_usd_end_of_day_btc
        (.ok { data := .absent, prices := none }) (fun _ => none)
        (fun _ => none) = .error .noPriceData ∧
    fx_rate_usd_end_of_day_eth (.ok { data := .absent, prices := none })
        (fun _ => none) (fun _ => none) "USDC" = .ok 1 ∧
    fx_rate_usd_end_of_day_eth (.ok { data := .absent, prices := none })
        (fun _ => none) (fun _ => none) "ETH" = .error .noPriceData ∧
    price_on_date_usd (.ok { data := .absent, prices := none })
        (fun _ => none) (fun _ => none) "JITOSOL" = none ∧
    fallback_price "USX" = some 1 ∧
    token_usd_value ["ta1"] (fun _ => some 1) none "JITOSOL" = 0 ∧
    pyOrZero none = 0 := by
  have h := price_oracle_no_points
    (fun _ => none) (fun _ => none) { data := .absent, prices := none } rfl
    (fun _ => none) (fun _ => none) { data := .absent, prices := none }
    "USDC" rfl (by decide)
    (fun _ => none) (fun _ => none) { data := .absent, prices := none }
    "ETH" rfl (by decide)
    (fun _ => none) (fun _ => none) "JITOSOL"
    { data := .absent, prices := none } rfl (fun _ => rfl)
    "USX" (by decide)
    ["ta1"] (fun _ => some 1) "JITOSOL" (by decide)
  exact h

/-- **C10.** For the Ethereum variant's designated stablecoins (USDC, USDT)
the rate lookup never raises: whenever the `try` body fails — whatever the
failure (fetch, extraction shape, timestamp parse, value conversion), not
only the empty-point-list case — the fixed fallback rate 1.0 is returned. -/
theorem eth_fx_stable_never_raises
    (fetch : Except PriceErr Payload) (parseIso : String → Option Nat)
    (floatParse : String → Option Rat) (symbol : String)
    (hs : symbol ∈ STABLE_FALLBACK)
    (fetch2 : Except PriceErr Payload) (parseIso2 : String → Option Nat)
    (floatParse2 : String → Option Rat) (symbol2 : String)
    (hs2 : symbol2 ∈ STABLE_FALLBACK)
    (he2 : (eth_fx_try fetch2 parseIso2 floatParse2 symbol2).isOk = false) :
    (fx_rate_usd_end_of_day_eth fetch parseIso floatParse symbol).isOk =
      true ∧
    fx_rate_usd_end_of_day_eth fetch2 parseIso2 floatParse2 symbol2 =
      .ok 1 := by
  constructor
  · rcases h : eth_fx_try fetch parseIso floatParse symbol with e | v
    · simp only [fx_rate_usd_end_of_day_eth, h, if_pos hs]
      rfl
    · simp only [fx_rate_usd_end_of_day_eth, h]
      rfl
  · rcases h : eth_fx_try fetch2 parseIso2 floatParse2 symbol2 with e | v
    · simp [fx_rate_usd_end_of_day_eth, h, hs2]
    · rw [h] at he2
      cases he2

/-- Witness for C10: a failing fetch (a raised exception before any point is
seen) still yields 1.0 for USDT. -/
theorem eth_fx_stable_never_raises_witness :
    (fx_rate_usd_end_of_day_eth (.ok { data := .absent, prices := none })
        (fun _ => none) (fun _ => none) "USDC").isOk = true ∧
    fx_rate_usd_end_of_day_eth (.error .exn) (fun _ => none) (fun _ => none)
      "USDT" = .ok 1 := by
  have h := eth_fx_stable_never_raises
    (.ok { data := .absent, prices := none }) (fun _ => none)
    (fun _ => none) "USDC" (by decide)
    (.error .exn) (fun _ => none) (fun _ => none) "USDT" (by decide) rfl
  exact h

/-! ## SPL token balances (solana_alchemy.py lines 138–175 and 301–335,
claim C7). -/

/-- An entry of `postTokenBalances`/`preTokenBalances`; `amount`/`decimals`
are the numeric payload of `uiTokenAmount` (`none` when the field is
absent). -/
structure TokenBalanceEntry where
  mint : String
  accountIndex : Option Int
  amount : Option Int
  decimals : Option Nat
  deriving DecidableEq

structure SplTx where
  accountKeys : List AccountKey
  postTokenBalances : List TokenBalanceEntry
  preTokenBalances : List TokenBalanceEntry
  deriving DecidableEq

/-- One iteration of the `pick_balance` loop: the entry contributes a value
exactly when its mint matches, its `accountIndex` is present and a valid
position of the key list, that position is the token account, and both
`amount` and `decimals` are present; otherwise the loop continues. -/
def entryBalance (pubkeys : List String) (token_account mint : String)
    (e : TokenBalanceEntry) : Option Rat :=
  if e.mint = mint then
    match e.accountIndex with
    | none => none
    | some idx =>
      if 0 ≤ idx ∧ idx < (pubkeys.length : Int) then
        if pubkeys.get? idx.toNat = some token_account then
          match e.amount, e.decimals with
          | some a, some d => some ((a : Rat) / 10 ^ d)
          | _, _ => none
        else none
      else none
  else none

/-- `pick_balance`: the first entry satisfying all the conditions wins. -/
def pick_balance (pubkeys : List String) (token_account mint : String)
    (entries : List TokenBalanceEntry) : Option Rat :=
  entries.findSome? (entryBalance pubkeys token_account mint)

/-- `spl_balance_at_ts_via_last_tx` with the two network reads
parameterised: `sigFound` is the signature search result, `fetched` the
`getTransaction` result (`none` when falsy or malformed).  Post-balances are
searched first, pre-balances only when that yields nothing. -/
def spl_balance_at_ts_via_last_tx (sigFound : Option String)
    (fetched : Option SplTx) (token_account mint : String) : Option Rat :=
  match sigFound with
  | none => none
  | some _ =>
    match fetched with
    | none => none
    | some tx =>
      match pick_balance (tx.accountKeys.map pubkeyOf) token_account mint
          tx.postTokenBalances with
      | some b => some b
      | none =>
        pick_balance (tx.accountKeys.map pubkeyOf) token_account mint
          tx.preTokenBalances

/-- **C7.** No token accounts, or no account yielding a snapshot balance,
gives amount 0 with no error; with balances present the reported USD value
is the *sum* of the per-account balances times the price; and a per-account
balance comes from the post-token-balances entry matching the mint and the
token account's position, falling back to pre-token-balances when the
post list yields nothing (and is `none` when no signature is found or the
transaction cannot be fetched). -/
theorem spl_token_aggregation
    (balOf1 : String → Option Rat) (px1 : Option Rat) (label1 : String)
    (tas2 : List String) (balOf2 : String → Option Rat) (px2 : Option Rat)
    (label2 : String) (hz2 : ∀ ta ∈ tas2, balOf2 ta = none)
    (tas3 : List String) (balOf3 : String → Option Rat) (p3 : Rat)
    (label3 : String) (h3 : tas3.filterMap balOf3 ≠ [])
    (s4 : String) (tx4 : SplTx) (ta4 mint4 : String) (b4 : Rat)
    (h4 : pick_balance (tx4.accountKeys.map pubkeyOf) ta4 mint4
      tx4.postTokenBalances = some b4)
    (s5 : String) (tx5 : SplTx) (ta5 mint5 : String)
    (h5 : pick_balance (tx5.accountKeys.map pubkeyOf) ta5 mint5
      tx5.postTokenBalances = none)
    (fetched6 : Option SplTx) (s6 ta6 mint6 : String) :
    token_usd_value [] balOf1 px1 label1 = 0 ∧
    token_usd_value tas2 balOf2 px2 label2 = 0 ∧
    token_usd_value tas3 balOf3 (some p3) label3 =
      (tas3.filterMap balOf3).sum * p3 ∧
    spl_balance_at_ts_via_last_tx (some s4) (some tx4) ta4 mint4 = some b4 ∧
    spl_balance_at_ts_via_last_tx (some s5) (some tx5) ta5 mint5 =
      pick_balance (tx5.accountKeys.map pubkeyOf) ta5 mint5
        tx5.preTokenBalances ∧
    spl_balance_at_ts_via_last_tx none fetched6 ta6 mint6 = none ∧
    spl_balance_at_ts_via_last_tx (some s6) none ta6 mint6 = none := by
  refine ⟨rfl, ?_, ?_, ?_, ?_, rfl, rfl⟩
  · unfold token_usd_value
    by_cases he : tas2.isEmpty
    · rw [if_pos he]
    · rw [if_neg he]
      have hnil : tas2.filterMap balOf2 = [] := by
        rw [List.filterMap_eq_nil_iff]
        exact hz2
      simp only [hnil, List.isEmpty_nil, if_pos]
  · have hne : tas3 ≠ [] := by
      intro hc
      rw [hc] at h3
      exact h3 rfl
    have hie : tas3.isEmpty = false := by
      rcases tas3 with _ | ⟨a, l⟩
      · exact absurd rfl hne
      · rfl
    have hbe : (tas3.filterMap balOf3).isEmpty = false := by
      rcases hfm : tas3.filterMap balOf3 with _ | ⟨a, l⟩
      · exact absurd hfm h3
      · rfl
    unfold token_usd_value
    rw [if_neg (by rw [hie]; exact Bool.false_ne_true)]
    simp only [hbe]
    rfl
  · simp only [spl_balance_at_ts_via_last_tx, h4]
  · simp only [spl_balance_at_ts_via_last_tx, h5]

/-- Witness for C7: the same mint held in two token accounts is summed. -/
theorem spl_token_aggregation_witness :
    token_usd_value [] (fun _ => some 1) (some 1) "USDC" = 0 ∧
    token_usd_value ["a", "b"] (fun _ => none) (some 1) "USDC" = 0 ∧
    token_usd_value ["a", "b"]
        (fun ta => if ta = "a" then some 1 else some 2) (some 1) "USDC" =
      ((["a", "b"].filterMap
        (fun ta => if ta = "a" then some 1 else some 2)).sum * 1 : Rat) ∧
    spl_balance_at_ts_via_last_tx (some "sg") (some
        { accountKeys := [.obj "ta"],
          postTokenBalances := [{ mint := "m", accountIndex := some 0,
                                  amount := some 5, decimals := some 0 }],
          preTokenBalances := [] }) "ta" "m" = some ((5 : Rat) / 10 ^ 0) ∧
    spl_balance_at_ts_via_last_tx (some "sg") (some
        { accountKeys := [.obj "ta"],
          postTokenBalances := [],
          preTokenBalances := [{ mint := "m", accountIndex := some 0,
                                 amount := some 4, decimals := some 0 }] })
        "ta" "m" =
      pick_balance ([AccountKey.obj "ta"].map pubkeyOf) "ta" "m"
        [{ mint := "m", accountIndex := some 0,
           amount := some 4, decimals := some 0 }] ∧
    spl_balance_at_ts_via_last_tx none none "ta" "m" = none ∧
    spl_balance_at_ts_via_last_tx (some "sg") none "ta" "m" = none := by
  have h := spl_token_aggregation
    (fun _ => some 1) (some 1) "USDC"
    ["a", "b"] (fun _ => none) (some 1) "USDC" (fun ta _ => rfl)
    ["a", "b"] (fun ta => if ta = "a" then some 1 else some 2) 1 "USDC"
    (by decide)
    "sg" { accountKeys := [.obj "ta"],
           postTokenBalances := [{ mint := "m", accountIndex := some 0,
                                   amount := some 5, decimals := some 0 }],
           preTokenBalances := [] } "ta" "m" ((5 : Rat) / 10 ^ 0) rfl
    "sg" { accountKeys := [.obj "ta"],
           postTokenBalances := [],
           preTokenBalances := [{ mint := "m", accountIndex := some 0,
                                  amount := some 4, decimals := some 0 }] }
    "ta" "m" rfl
    none "sg" "ta" "m"
  exact h

/-! ## ERC-20 balance-of call encoding (eth_alchemy.py lines 71–80,
claim C8).

`holder_clean = holder.lower().replace("0x", "").rjust(64, "0")`;
`data = "0x70a08231" + holder_clean`; and the `eth_call` result is decoded
with `int(out, 16)`.  Strings are worked with as their character lists. -/

/-- ASCII lower-casing, as `str.lower()` acts on a hex address. -/
def pyLowerChar (c : Char) : Char :=
  if 65 ≤ c.toNat ∧ c.toNat ≤ 90 then Char.ofNat (c.toNat + 32) else c

/-- Python `str.replace("0x", "")`: remove every non-overlapping occurrence
of `"0x"`, scanning left to right. -/
def replace0x : List Char → List Char
  | [] => []
  | [c] => [c]
  | c1 :: c2 :: rest =>
    if c1 = '0' ∧ c2 = 'x' then replace0x rest
    else c1 :: replace0x (c2 :: rest)

lemma replace0x_cons2 (c1 c2 : Char) (rest : List Char) :
    replace0x (c1 :: c2 :: rest) =
      if c1 = '0' ∧ c2 = 'x' then replace0x rest
      else c1 :: replace0x (c2 :: rest) := by
  simp only [replace0x]

/-- Python `str.rjust(64, "0")`. -/
def rjust64 (l : List Char) : List Char :=
  if l.length ≥ 64 then l else List.replicate (64 - l.length) '0' ++ l

/-- The encoded `eth_call` data of `erc20_balance_at_block`. -/
def erc20_call_data (holder : List Char) : List Char :=
  "0x70a08231".data ++ rjust64 (replace0x (holder.map pyLowerChar))

/-- Value of a single hex digit (`none` for a non-digit). -/
def hexVal (c : Char) : Option Nat :=
  if 48 ≤ c.toNat ∧ c.toNat ≤ 57 then some (c.toNat - 48)
  else if 97 ≤ c.toNat ∧ c.toNat ≤ 102 then some (c.toNat - 87)
  else if 65 ≤ c.toNat ∧ c.toNat ≤ 70 then some (c.toNat - 55)
  else none

def hexStep (acc : Option Nat) (c : Char) : Option Nat :=
  match acc, hexVal c with
  | some a, some v => some (16 * a + v)
  | _, _ => none

/-- The optional `0x`/`0X` prefix accepted by `int(s, 16)`. -/
def strip0x : List Char → List Char
  | c1 :: c2 :: rest =>
    if c1 = '0' ∧ (c2 = 'x' ∨ c2 = 'X') then rest else c1 :: c2 :: rest
  | l => l

lemma strip0x_cons2 (c1 c2 : Char) (rest : List Char) :
    strip0x (c1 :: c2 :: rest) =
      if c1 = '0' ∧ (c2 = 'x' ∨ c2 = 'X') then rest
      else c1 :: c2 :: rest := rfl

/-- `int(s, 16)` on a trimmed, sign-free string: `none` where Python raises
`ValueError`. -/
def int16 (s : List Char) : Option Nat :=
  if (strip0x s).isEmpty then none
  else (strip0x s).foldl hexStep (some 0)

/-- `erc20_balance_at_block`'s decoding of the `eth_call` hex result into
raw token units. -/
def erc20_decode (out : List Char) : Option Nat :=
  int16 out

def hexDigits : List Char :=
  "0123456789abcdefABCDEF".data

lemma replace0x_of_no_x : ∀ l : List Char, 'x' ∉ l → replace0x l = l
  | [], _ => rfl
  | [c], _ => rfl
  | c1 :: c2 :: rest, h => by
    have hc2 : ¬ (c1 = '0' ∧ c2 = 'x') := by
      rintro ⟨_, hh⟩
      apply h
      rw [← hh]
      exact List.mem_cons_of_mem c1 (List.mem_cons_self c2 rest)
    rw [replace0x_cons2, if_neg hc2,
      replace0x_of_no_x (c2 :: rest)
        (fun hm => h (List.mem_cons_of_mem c1 hm))]

lemma pyLowerChar_facts :
    ∀ c ∈ hexDigits, pyLowerChar c ≠ 'x' ∧
      hexVal (pyLowerChar c) = hexVal c ∧ c ≠ 'x' ∧ c ≠ 'X' := by
  decide

lemma hexFold_zeros :
    ∀ (n : Nat) (l : List Char),
    (List.replicate n '0' ++ l).foldl hexStep (some 0) =
      l.foldl hexStep (some 0) := by
  intro n
  induction n with
  | zero => intro l; rfl
  | succ m ih =>
    intro l
    rw [List.replicate_succ, List.cons_append, List.foldl_cons]
    have h0 : hexStep (some 0) '0' = some 0 := by decide
    rw [h0]
    exact ih l

lemma hexFold_lower :
    ∀ (l : List Char) (a : Option Nat),
    (∀ c ∈ l, hexVal (pyLowerChar c) = hexVal c) →
    (l.map pyLowerChar).foldl hexStep a = l.foldl hexStep a := by
  intro l
  induction l with
  | nil => intro a _; rfl
  | cons c rest ih =>
    intro a h
    rw [List.map_cons, List.foldl_cons, List.foldl_cons]
    have hc : hexStep a (pyLowerChar c) = hexStep a c := by
      unfold hexStep
      rw [h c (List.mem_cons_self _ _)]
    rw [hc]
    exact ih _ (fun c2 h2 => h c2 (List.mem_cons_of_mem _ h2))

lemma hexFold_ofDigits :
    ∀ (l : List Char) (a : Nat),
    (∀ c ∈ l, (hexVal c).isSome = true) →
    l.foldl hexStep (some a) =
      some (a * 16 ^ l.length +
        Nat.ofDigits 16 (l.reverse.map (fun c => (hexVal c).getD 0))) := by
  intro l
  induction l with
  | nil =>
    intro a _
    simp [Nat.ofDigits]
  | cons c rest ih =>
    intro a h
    have hc : (hexVal c).isSome = true := h c (List.mem_cons_self _ _)
    rcases hv : hexVal c with _ | v
    · rw [hv] at hc
      cases hc
    · rw [List.foldl_cons]
      have hstep : hexStep (some a) c = some (16 * a + v) := by
        unfold hexStep
        rw [hv]
      rw [hstep, ih (16 * a + v)
        (fun c2 h2 => h c2 (List.mem_cons_of_mem _ h2))]
      congr 1
      rw [List.reverse_cons, List.map_append, Nat.ofDigits_append]
      simp only [List.map_cons, List.map_nil, List.length_map,
        List.length_reverse, List.length_cons, hv, Option.getD_some,
        Nat.ofDigits_singleton]
      ring

/-- **C8.** For every 20-byte hex holder address (with `0x` prefix, any
letter case), the encoded call data is the fixed 4-byte selector
`0x70a08231` followed by exactly 64 hex characters (32 bytes) whose high 24
hex characters (12 bytes) are zero and whose low 40 hex characters (20
bytes) are the lower-cased holder address — the same byte string, as
witnessed by an unchanged hex value; and the hex result of the call is
decoded as the unsigned base-16 integer of its digits. -/
theorem erc20_call_encoding
    (s : List Char) (hlen : s.length = 40) (hhex : ∀ c ∈ s, c ∈ hexDigits)
    (ds : List Char) (hds : ds ≠ [])
    (hdshex : ∀ c ∈ ds, c ∈ hexDigits) :
    erc20_call_data ('0' :: 'x' :: s) =
      "0x70a08231".data ++ (List.replicate 24 '0' ++ s.map pyLowerChar) ∧
    (List.replicate 24 '0' ++ s.map pyLowerChar).length = 64 ∧
    int16 (List.replicate 24 '0' ++ s.map pyLowerChar) = int16 s ∧
    erc20_decode ('0' :: 'x' :: ds) =
      some (Nat.ofDigits 16
        (ds.reverse.map (fun c => (hexVal c).getD 0))) := by
  have hnox : 'x' ∉ s.map pyLowerChar := by
    intro hm
    obtain ⟨c, hc, hceq⟩ := List.mem_map.mp hm
    exact (pyLowerChar_facts c (hhex c hc)).1 hceq
  have hmaplen : (s.map pyLowerChar).length = 40 := by
    rw [List.length_map, hlen]
  refine ⟨?_, ?_, ?_, ?_⟩
  · unfold erc20_call_data
    congr 1
    have e0 : pyLowerChar '0' = '0' := by decide
    have ex : pyLowerChar 'x' = 'x' := by decide
    have h1 : ('0' :: 'x' :: s).map pyLowerChar =
        '0' :: 'x' :: s.map pyLowerChar := by
      rw [List.map_cons, List.map_cons, e0, ex]
    rw [h1, replace0x_cons2, if_pos ⟨rfl, rfl⟩,
      replace0x_of_no_x _ hnox]
    unfold rjust64
    rw [hmaplen]
    rw [if_neg (by omega)]
  · rw [List.length_append, List.length_replicate, hmaplen]
  · have hrep : List.replicate 24 '0' ++ s.map pyLowerChar =
        '0' :: '0' :: (List.replicate 22 '0' ++ s.map pyLowerChar) := rfl
    have hstrip1 : strip0x (List.replicate 24 '0' ++ s.map pyLowerChar) =
        List.replicate 24 '0' ++ s.map pyLowerChar := by
      rw [hrep, strip0x_cons2]
      rw [if_neg (by
        rintro ⟨_, h | h⟩
        · exact absurd h (by decide)
        · exact absurd h (by decide))]
    obtain ⟨c1, c2, rest, hs⟩ :
        ∃ c1 c2 rest, s = c1 :: c2 :: rest := by
      rcases s with _ | ⟨c1, _ | ⟨c2, rest⟩⟩
      · simp at hlen
      · simp at hlen
      · exact ⟨c1, c2, rest, rfl⟩
    have hmem2 : c2 ∈ s := by
      rw [hs]
      exact List.mem_cons_of_mem c1 (List.mem_cons_self c2 rest)
    have hc2 := pyLowerChar_facts c2 (hhex c2 hmem2)
    have hstrip2 : strip0x s = s := by
      rw [hs, strip0x_cons2]
      rw [if_neg (by
        rintro ⟨_, h | h⟩
        · exact hc2.2.2.1 h
        · exact hc2.2.2.2 h)]
    have hne1 : ¬ ((List.replicate 24 '0' ++ s.map pyLowerChar).isEmpty
        = true) := by
      rw [hrep]
      simp
    have hne2 : ¬ (s.isEmpty = true) := by
      rw [hs]
      simp
    unfold int16
    rw [hstrip1, hstrip2, if_neg hne1, if_neg hne2]
    rw [hexFold_zeros, hexFold_lower s (some 0)
      (fun c hc => (pyLowerChar_facts c (hhex c hc)).2.1)]
  · have hdsome : ∀ c ∈ ds, (hexVal c).isSome = true := fun c hc => by
      have hall : ∀ c2 ∈ hexDigits, (hexVal c2).isSome = true := by decide
      exact hall c (hdshex c hc)
    have hstrip : strip0x ('0' :: 'x' :: ds) = ds := by
      rw [strip0x_cons2, if_pos ⟨rfl, Or.inl rfl⟩]
    have hne : ¬ (ds.isEmpty = true) := by
      rcases ds with _ | ⟨c, l⟩
      · exact absurd rfl hds
      · simp
    unfold erc20_decode int16
    rw [hstrip, if_neg hne]
    rw [hexFold_ofDigits ds 0 hdsome]
    simp

/-- Witness for C8 at the configured USDC contract's holder-style address
(mixed case) and a two-digit result string. -/
theorem erc20_call_encoding_witness :
    erc20_call_data
        ('0' :: 'x' :: "A0b86991c6218b36c1d19d4a2e9eb0ce3606eb48".data) =
      "0x70a08231".data ++ (List.replicate 24 '0' ++
        "A0b86991c6218b36c1d19d4a2e9eb0ce3606eb48".data.map pyLowerChar) ∧
    (List.replicate 24 '0' ++
      "A0b86991c6218b36c1d19d4a2e9eb0ce3606eb48".data.map
        pyLowerChar).length = 64 ∧
    int16 (List.replicate 24 '0' ++
        "A0b86991c6218b36c1d19d4a2e9eb0ce3606eb48".data.map pyLowerChar) =
      int16 "A0b86991c6218b36c1d19d4a2e9eb0ce3606eb48".data ∧
    erc20_decode ('0' :: 'x' :: "1f".data) =
      some (Nat.ofDigits 16
        ("1f".data.reverse.map (fun c => (hexVal c).getD 0))) := by
  have h := erc20_call_encoding
    "A0b86991c6218b36c1d19d4a2e9eb0ce3606eb48".data (by decide) (by decide)
    "1f".data (by decide) (by decide)
  exact h

end WalletAudit
